import Mathlib

/-!
Shallow embedding of `source/modules/version_matcher.py` (Blender-Launcher).

The file models, in order:
* ASCII character classes used by `VERSION_SEARCH_REGEX`;
* decimal numerals (Python `str(int)` / `int(str)` on the tokens the regex produces);
* `datetime.datetime` values (`PyDateTime`), their comparison and `isoformat`
  serialization, and a model of `datetime.fromisoformat`;
* `BasicBuildInfo` (with `from_buildinfo`, which calls `astimezone(utc)`);
* `VersionSearchQuery` with its `__post_init__` validation (`VersionSearchQuery.make`),
  `__str__` serialization (`VersionSearchQuery.str`), `_parse` (`parseTuple`) and
  `parse` (`VersionSearchQuery.parse`);
* `BInfoMatcher.match` (`BInfoMatcher.matchQuery` / `bmatch`), where Python's
  `max()` / `min()` on an empty sequence (a `ValueError`) and comparisons between
  naive and aware datetimes (a `TypeError`) are modelled by `Except Unit`.
-/

/-! ### Character classes of `VERSION_SEARCH_REGEX` (ASCII fragment of Python `re`) -/

/-- The three mode-symbol characters `[\^\-\*]`. -/
def symChars : List Char := ['^', '-', '*']

/-- `\d` (ASCII). -/
def isDigitCh (c : Char) : Bool := '0' ≤ c && c ≤ '9'

/-- `\s` (ASCII). -/
def isSpaceCh (c : Char) : Bool :=
  c = ' ' || c = '\t' || c = '\n' || c = '\r' || c = '\x0b' || c = '\x0c'

/-- `[\d\w]` (ASCII): the build-hash token class. -/
def isWordCh (c : Char) : Bool :=
  isDigitCh c || ('a' ≤ c && c ≤ 'z') || ('A' ≤ c && c ≤ 'Z') || c = '_'

/-- `[^\@\s\+]`: the branch token class. -/
def branchClassCh (c : Char) : Bool := !(c = '@' || isSpaceCh c || c = '+')

/-- `[\dT\+\:Z\ \^\-]`: the commit-time token class. -/
def ctClassCh (c : Char) : Bool :=
  isDigitCh c || c = 'T' || c = '+' || c = ':' || c = 'Z' || c = ' ' || c = '^' || c = '-'

/-! ### Decimal numerals -/

/-- The digit character for `n < 10`. -/
def digitCh (n : Nat) : Char := Char.ofNat (48 + n)

/-- Numeric value of a digit character. -/
def chVal (c : Char) : Nat := c.toNat - 48

/-- Fuel-indexed decimal printer (structural recursion so the kernel can evaluate it). -/
def natToCharsAux : Nat → Nat → List Char
  | 0, _ => []
  | fuel + 1, n => if n < 10 then [digitCh n] else natToCharsAux fuel (n / 10) ++ [digitCh (n % 10)]

/-- Decimal digits of `n`, most significant first (Python `str` of a nonnegative int). -/
def natToChars (n : Nat) : List Char := natToCharsAux (n + 1) n

/-- Python `str` of an int. -/
def intToChars (i : Int) : List Char :=
  if i < 0 then '-' :: natToChars i.natAbs else natToChars i.toNat

/-- Value of a digit string, accumulated from `a` (Python `int` of a digit token). -/
def charsToNatFrom (a : Nat) (l : List Char) : Nat := l.foldl (fun x c => x * 10 + chVal c) a

def charsToNat (l : List Char) : Nat := charsToNatFrom 0 l

/-- `f-string` zero padding `%0kd` for a nonnegative value. -/
def padTo (k : Nat) (n : Nat) : List Char :=
  List.replicate (k - (natToChars n).length) '0' ++ natToChars n

def pad2 (n : Nat) : List Char := padTo 2 n

/-! ### `datetime.datetime`

`PyDateTime` models a (constructor-validated) `datetime.datetime`; `tz` is the UTC
offset in whole minutes of a fixed-offset `tzinfo` (`none` = naive datetime). -/

structure PyDateTime where
  year : Nat
  month : Nat
  day : Nat
  hour : Nat
  minute : Nat
  second : Nat
  microsecond : Nat
  tz : Option Int
deriving DecidableEq, Repr

/-- Days from 1970-01-01 of a civil date (standard civil-from-days inverse companion). -/
def daysFromCivil (y : Int) (m d : Nat) : Int :=
  let y2 : Int := if m ≤ 2 then y - 1 else y
  let era : Int := Int.ediv y2 400
  let yoe : Int := y2 - era * 400
  let mp : Int := if 2 < m then (m : Int) - 3 else (m : Int) + 9
  let doy : Int := Int.ediv (153 * mp + 2) 5 + (d : Int) - 1
  let doe : Int := yoe * 365 + Int.ediv yoe 4 - Int.ediv yoe 100 + doy
  era * 146097 + doe - 719468

/-- Microseconds from the epoch of the wall-clock fields (offset ignored). -/
def epochMicro (t : PyDateTime) : Int :=
  daysFromCivil (t.year : Int) t.month t.day * 86400000000
    + ((t.hour * 3600 + t.minute * 60 + t.second : Nat) : Int) * 1000000 + (t.microsecond : Int)

/-- The instant an aware datetime denotes, in microseconds from the epoch. -/
def epochAdjMicro (t : PyDateTime) : Int := epochMicro t - (t.tz.getD 0) * 60000000

/-- Three-way comparison for any linear order (used for `int`, `str` and instants). -/
def linCmp {α : Type} [LinearOrder α] (a b : α) : Ordering :=
  if a < b then Ordering.lt else if a = b then Ordering.eq else Ordering.gt

/-- Python comparison of two naive datetimes: field-tuple comparison. -/
def pyNaiveCmp (a b : PyDateTime) : Ordering :=
  (linCmp a.year b.year).then ((linCmp a.month b.month).then ((linCmp a.day b.day).then
    ((linCmp a.hour b.hour).then ((linCmp a.minute b.minute).then
      ((linCmp a.second b.second).then (linCmp a.microsecond b.microsecond))))))

/-- Python comparison of datetimes: naive/aware pairs are incomparable
(`<` raises `TypeError`, `==` is `False`) — modelled by `none`. -/
def pyCmpDt (a b : PyDateTime) : Option Ordering :=
  match a.tz, b.tz with
  | none, none => some (pyNaiveCmp a b)
  | some _, some _ => some (linCmp (epochAdjMicro a) (epochAdjMicro b))
  | _, _ => none

/-- Civil date from days since the epoch (standard algorithm, executable). -/
def civilFromDays (z0 : Int) : Int × Nat × Nat :=
  let z := z0 + 719468
  let era := Int.ediv z 146097
  let doe := z - era * 146097
  let yoe := Int.ediv (doe - Int.ediv doe 1460 + Int.ediv doe 36524 - Int.ediv doe 146096) 365
  let y := yoe + era * 400
  let doy := doe - (365 * yoe + Int.ediv yoe 4 - Int.ediv yoe 100)
  let mp := Int.ediv (5 * doy + 2) 153
  let d := doy - Int.ediv (153 * mp + 2) 5 + 1
  let m := if mp < 10 then mp + 3 else mp - 9
  (if m ≤ 2 then y + 1 else y, m.toNat, d.toNat)

/-- Rebuild a datetime from an instant (microseconds from epoch) and an offset tag. -/
def pyDatetimeFromEpochMicro (t : Int) (tz : Option Int) : PyDateTime :=
  let day := Int.ediv t 86400000000
  let rem := (t - day * 86400000000).toNat
  let c := civilFromDays day
  { year := c.1.toNat, month := c.2.1, day := c.2.2, hour := rem / 3600000000,
    minute := rem / 60000000 % 60, second := rem / 1000000 % 60,
    microsecond := rem % 1000000, tz := tz }

/-- Models `dt.astimezone(datetime.timezone.utc)`: an aware datetime is converted to
the same instant with a zero offset; a naive datetime is interpreted as local time
(`localOffsetMinutes` is the environment's local UTC offset) and converted likewise —
in both cases the result is aware with offset `0`, never naive. -/
def PyDateTime.astimezoneUtc (t : PyDateTime) (localOffsetMinutes : Int) : PyDateTime :=
  match t.tz with
  | some off => pyDatetimeFromEpochMicro (epochMicro t - off * 60000000) (some 0)
  | none => pyDatetimeFromEpochMicro (epochMicro t - localOffsetMinutes * 60000000) (some 0)

/-! ### `BasicBuildInfo` -/

/-- The `(major, minor, patch)` part of a `semver.Version` (the only part
`BInfoMatcher.match` reads, through the `major`/`minor`/`patch` properties). -/
structure Version where
  major : Nat
  minor : Nat
  patch : Nat
deriving DecidableEq, Repr

/-- The `BasicBuildInfo` dataclass.  Its generated `__init__` stores the fields
verbatim: there is no `__post_init__`, so no validation or normalization happens
on direct construction. -/
structure BasicBuildInfo where
  version : Version
  branch : String
  build_hash : String
  commit_time : PyDateTime
deriving DecidableEq, Repr

def BasicBuildInfo.major (b : BasicBuildInfo) : Nat := b.version.major

def BasicBuildInfo.minor (b : BasicBuildInfo) : Nat := b.version.minor

def BasicBuildInfo.patch (b : BasicBuildInfo) : Nat := b.version.patch

/-- `BasicBuildInfo.from_buildinfo`: copies the fields of a `BuildInfo` (a collaborator
type outside this module; only the fields this classmethod reads are taken as
arguments), defaulting a missing hash to `""` and normalizing `commit_time` with
`astimezone(utc)`. -/
def BasicBuildInfo.from_buildinfo (full_semversion : Version) (branch : String)
    (build_hash : Option String) (commit_time : PyDateTime)
    (localOffsetMinutes : Int) : BasicBuildInfo :=
  { version := full_semversion, branch := branch,
    build_hash := build_hash.getD (""),
    commit_time := commit_time.astimezoneUtc localOffsetMinutes }

/-! ### `VersionSearchQuery` -/

/-- `major` / `minor` / `patch`: `int | str` in the dataclass annotation. -/
inductive NumField where
  | int (n : Int)
  | str (s : String)
deriving DecidableEq, Repr

/-- `commit_time`: `datetime.datetime | str`. -/
inductive CTField where
  | dt (d : PyDateTime)
  | str (s : String)
deriving DecidableEq, Repr

structure VersionSearchQuery where
  major : NumField
  minor : NumField
  patch : NumField
  branch : Option String
  build_hash : Option String
  commit_time : CTField
deriving DecidableEq, Repr

def symStr (s : String) : Bool := s = "^" || s = "*" || s = "-"

/-- `__post_init__` check on a positional field: a string must be a mode symbol. -/
def NumField.isBadStr : NumField → Bool
  | .int _ => false
  | .str s => !symStr s

def CTField.isBadStr : CTField → Bool
  | .dt _ => false
  | .str s => !symStr s

/-- `__post_init__` check on `branch` / `build_hash`: a truthy (non-empty) value
must not be `^` or `-`. -/
def optBad : Option String → Bool
  | none => false
  | some s => !(s = "") && (s = "^" || s = "-")

/-! Serialization (`__str__`), needed below also for the f-string in a
`__post_init__` error message. -/

/-- The `±HH:MM` suffix produced by `datetime.isoformat` for an aware datetime. -/
def offsetChars : Option Int → List Char
  | none => []
  | some off =>
      (if off < 0 then '-' else '+') :: (pad2 (off.natAbs / 60) ++ ':' :: pad2 (off.natAbs % 60))

/-- `str(datetime)` = `isoformat(sep=' ')`: microseconds omitted when `0`,
offset omitted when naive. -/
def dtChars (t : PyDateTime) : List Char :=
  padTo 4 t.year ++ '-' :: pad2 t.month ++ '-' :: pad2 t.day ++ ' ' :: pad2 t.hour
    ++ ':' :: pad2 t.minute ++ ':' :: pad2 t.second
    ++ (if t.microsecond = 0 then [] else '.' :: padTo 6 t.microsecond)
    ++ offsetChars t.tz

def PyDateTime.str (t : PyDateTime) : String := String.mk (dtChars t)

def NumField.chars : NumField → List Char
  | .int n => intToChars n
  | .str s => s.data

def CTField.chars : CTField → List Char
  | .dt d => dtChars d
  | .str s => s.data

/-- Python truthiness of `commit_time` (`if self.commit_time:`). -/
def CTField.truthy : CTField → Bool
  | .dt _ => true
  | .str s => !(s = "")

/-- `f"{pos}"` in the `__post_init__` error message. -/
def NumField.errTok : NumField → String
  | .int n => String.mk (intToChars n)
  | .str s => s

def CTField.errTok : CTField → String
  | .dt d => d.str
  | .str s => s

def mustBeMsg : String := " must be in [\"^\", \"*\", \"-\"]"

/-- `VersionSearchQuery(...)`: the generated `__init__` followed by `__post_init__`.
A raised `ValueError` (`InvalidQueryFields`) is modelled by `Except.error` carrying
the exception message. -/
def VersionSearchQuery.make (major minor patch : NumField) (branch build_hash : Option String)
    (commit_time : CTField) : Except String VersionSearchQuery :=
  if major.isBadStr then .error (major.errTok ++ mustBeMsg)
  else if minor.isBadStr then .error (minor.errTok ++ mustBeMsg)
  else if patch.isBadStr then .error (patch.errTok ++ mustBeMsg)
  else if commit_time.isBadStr then .error (commit_time.errTok ++ mustBeMsg)
  else if optBad build_hash then .error ("build_hash cannot be temporally matched")
  else if optBad branch then .error ("branch cannot be temporally matched")
  else .ok ⟨major, minor, patch, branch, build_hash, commit_time⟩

/-- `VersionSearchQuery.default()`. -/
def VersionSearchQuery.defaultQuery : VersionSearchQuery :=
  ⟨.str ("^"), .str ("^"), .str ("^"), none, none, .str ("^")⟩

/-- `if self.branch:` / `if self.build_hash:` serialization parts. -/
def optPart (mark : Char) : Option String → List Char
  | none => []
  | some s => if s = "" then [] else mark :: s.data

/-- `VersionSearchQuery.__str__`. -/
def VersionSearchQuery.str (q : VersionSearchQuery) : String :=
  String.mk (q.major.chars ++ '.' :: q.minor.chars ++ '.' :: q.patch.chars
    ++ optPart '-' q.branch ++ optPart '+' q.build_hash
    ++ (if q.commit_time.truthy then '@' :: q.commit_time.chars else []))

/-- `with_branch` re-runs the constructor (and so `__post_init__`). -/
def VersionSearchQuery.with_branch (q : VersionSearchQuery) (branch : Option String) :
    Except String VersionSearchQuery :=
  VersionSearchQuery.make q.major q.minor q.patch branch q.build_hash q.commit_time

def VersionSearchQuery.with_build_hash (q : VersionSearchQuery) (build_hash : Option String) :
    Except String VersionSearchQuery :=
  VersionSearchQuery.make q.major q.minor q.patch q.branch build_hash q.commit_time

def VersionSearchQuery.with_commit_time (q : VersionSearchQuery) (commit_time : CTField) :
    Except String VersionSearchQuery :=
  VersionSearchQuery.make q.major q.minor q.patch q.branch q.build_hash commit_time

/-! ### `datetime.fromisoformat`

Modelled from the documented behaviour of `datetime.fromisoformat` (Python ≥ 3.11),
restricted to what the commit-time token class can contain: extended (`YYYY-MM-DD`)
or basic (`YYYYMMDD`) calendar dates, an optional time `HH[:MM[:SS[.ffffff]]]`
after an arbitrary single separator character, and an offset `""`, `Z`, `z`,
`±HH`, `±HHMM` or `±HH:MM`; fields are range-validated as by the `datetime`
constructor.  Exotic ISO-8601 shapes (week dates, ordinal dates, basic-format
times, fractional or second-resolution offsets) are outside the model. -/

/-- Read exactly `n` digits, accumulating their value onto `acc`. -/
def readND : Nat → Nat → List Char → Option (Nat × List Char)
  | 0, acc, l => some (acc, l)
  | n + 1, acc, c :: r => if isDigitCh c then readND n (acc * 10 + chVal c) r else none
  | _ + 1, _, [] => none

def parseFracPart : List Char → Option (Nat × List Char)
  | '.' :: r =>
      let ds := r.takeWhile isDigitCh
      let k := ds.length
      if 1 ≤ k && k ≤ 6 then some (charsToNat ds * 10 ^ (6 - k), r.drop k) else none
  | l => some (0, l)

def parseTzPart : List Char → Option (Option Int)
  | [] => some none
  | ['Z'] => some (some 0)
  | ['z'] => some (some 0)
  | c :: r =>
      if c = '+' || c = '-' then
        match readND 2 0 r with
        | none => none
        | some (hh, r1) =>
            let mmRes : Option (Nat × List Char) :=
              match r1 with
              | [] => some (0, [])
              | ':' :: r2 => readND 2 0 r2
              | r2 => readND 2 0 r2
            match mmRes with
            | none => none
            | some (mm, r3) =>
                if r3 = [] && hh ≤ 23 && mm ≤ 59 then
                  some (some ((if c = '-' then (-1 : Int) else 1) * ((hh * 60 + mm : Nat) : Int)))
                else none
      else none

def parseTimePart (l : List Char) : Option (Nat × Nat × Nat × Nat × Option Int) :=
  match readND 2 0 l with
  | none => none
  | some (hh, r1) =>
    let msRes : Option (Nat × Nat × Nat × List Char) :=
      match r1 with
      | ':' :: r2 =>
          match readND 2 0 r2 with
          | none => none
          | some (mi, r3) =>
              match r3 with
              | ':' :: r4 =>
                  match readND 2 0 r4 with
                  | none => none
                  | some (ss, r5) =>
                      match parseFracPart r5 with
                      | none => none
                      | some (us, r6) => some (mi, ss, us, r6)
              | _ => some (mi, 0, 0, r3)
      | _ => some (0, 0, 0, r1)
    match msRes with
    | none => none
    | some (mi, ss, us, r6) =>
        match parseTzPart r6 with
        | none => none
        | some tz => if hh ≤ 23 && mi ≤ 59 && ss ≤ 59 then some (hh, mi, ss, us, tz) else none

def isLeapYear (y : Nat) : Bool := (y % 4 = 0 && !(y % 100 = 0)) || y % 400 = 0

def daysInMonth (y m : Nat) : Nat :=
  if m = 2 then (if isLeapYear y then 29 else 28)
  else if m = 4 || m = 6 || m = 9 || m = 11 then 30 else 31

def pyFromisoformat (l : List Char) : Option PyDateTime :=
  match readND 4 0 l with
  | none => none
  | some (y, r0) =>
    let dateRes : Option (Nat × Nat × List Char) :=
      match r0 with
      | '-' :: r1 =>
          match readND 2 0 r1 with
          | none => none
          | some (mo, r2) =>
              match r2 with
              | '-' :: r3 =>
                  match readND 2 0 r3 with
                  | none => none
                  | some (dd, r4) => some (mo, dd, r4)
              | _ => none
      | r1 =>
          match readND 2 0 r1 with
          | none => none
          | some (mo, r2) =>
              match readND 2 0 r2 with
              | none => none
              | some (dd, r3) => some (mo, dd, r3)
    match dateRes with
    | none => none
    | some (mo, dd, r) =>
      if 1 ≤ y && 1 ≤ mo && mo ≤ 12 && 1 ≤ dd && dd ≤ daysInMonth y mo then
        match r with
        | [] => some ⟨y, mo, dd, 0, 0, 0, 0, none⟩
        | _sep :: rt =>
            match parseTimePart rt with
            | none => none
            | some (hh, mi, ss, us, tz) => some ⟨y, mo, dd, hh, mi, ss, us, tz⟩
      else none

/-! ### `VERSION_SEARCH_REGEX` and `_parse`

The regex is anchored and each alternative/greedy step below is forced (no
backtracking can produce a different overall match):
* a version component is a single symbol character or a maximal digit run — a
  shorter digit run would leave a digit where `.`/`-`/`+`/`@`/end is required;
* the branch (resp. hash) group starts with a literal `-` (resp. `+`) and takes
  a maximal run of its class — a shorter run would leave a class character where
  only `+`, `@` or the end may follow, and skipping the group entirely leaves the
  marker character unmatched;
* after `@`, the first alternative (a single symbol) applies only when exactly one
  character remains; otherwise the class run must consume the whole remainder. -/

structure RegexGroups where
  g1 : List Char
  g2 : List Char
  g3 : List Char
  g4 : Option (List Char)
  g5 : Option (List Char)
  g6 : Option (List Char)
deriving DecidableEq, Repr

/-- `([\^\-\*]|\d+)`. -/
def numTok : List Char → Option (List Char × List Char)
  | [] => none
  | c :: r =>
      if c ∈ symChars then some ([c], r)
      else if isDigitCh c then
        some ((c :: r).takeWhile isDigitCh, (c :: r).dropWhile isDigitCh)
      else none

def expectDot : List Char → Option (List Char)
  | '.' :: r => some r
  | _ => none

/-- `(?:<mark>(<cls>+))?` where `<mark>` cannot start any later part of the grammar. -/
def optMarked (mark : Char) (cls : Char → Bool) : List Char → Option (Option (List Char) × List Char)
  | [] => some (none, [])
  | c :: r =>
      if c = mark then
        let tok := r.takeWhile cls
        if tok = [] then none else some (some tok, r.dropWhile cls)
      else some (none, c :: r)

/-- `(?:\@([\^\-\*]|[\dT\+\:Z\ \^\-]+))?$`. -/
def commitEnd : List Char → Option (Option (List Char))
  | [] => some none
  | '@' :: r =>
      match r with
      | [] => none
      | [c] => if c ∈ symChars || ctClassCh c then some (some [c]) else none
      | c1 :: c2 :: r2 =>
          if (c1 :: c2 :: r2).all ctClassCh then some (some (c1 :: c2 :: r2)) else none
  | _ => none

/-- `VERSION_SEARCH_REGEX.match` (anchored), returning the six capture groups. -/
def regexMatch (l : List Char) : Option RegexGroups := do
  let (g1, r1) ← numTok l
  let r2 ← expectDot r1
  let (g2, r3) ← numTok r2
  let r4 ← expectDot r3
  let (g3, r5) ← numTok r4
  let (g4, r6) ← optMarked '-' branchClassCh r5
  let (g5, r7) ← optMarked '+' isWordCh r6
  let g6 ← commitEnd r7
  pure ⟨g1, g2, g3, g4, g5, g6⟩

/-- The tuple `_parse` returns. -/
structure ParsedFields where
  major : NumField
  minor : NumField
  patch : NumField
  branch : Option String
  build_hash : Option String
  commit_time : CTField
deriving DecidableEq, Repr

/-- `str.isnumeric` on a regex group-1/2/3 token (such tokens are ASCII). -/
def tokIsNumeric (l : List Char) : Bool := !(l = []) && l.all isDigitCh

def tokToNumField (l : List Char) : NumField :=
  if tokIsNumeric l then NumField.int (Int.ofNat (charsToNat l)) else NumField.str (String.mk l)

/-- `_parse`: regex match, `MalformedQuery` (`ValueError`) naming the input on
failure, numeric conversion of the version tokens, defaulting of a missing
commit-time group to `"^"`, and the lenient `fromisoformat` attempt that keeps
the raw token on failure. -/
def parseTuple (s : String) : Except String ParsedFields :=
  match regexMatch s.data with
  | none => Except.error ("Invalid version search query: " ++ s)
  | some g =>
      let ct : CTField :=
        match g.g6 with
        | none => CTField.str ("^")
        | some t =>
            if symStr (String.mk t) then CTField.str (String.mk t)
            else
              match pyFromisoformat t with
              | some d => CTField.dt d
              | none => CTField.str (String.mk t)
      Except.ok ⟨tokToNumField g.g1, tokToNumField g.g2, tokToNumField g.g3,
        g.g4.map String.mk, g.g5.map String.mk, ct⟩

/-- `VersionSearchQuery.parse`: `cls(*_parse(s))` — the parsed tuple goes through
the constructor, hence through `__post_init__` validation. -/
def VersionSearchQuery.parse (s : String) : Except String VersionSearchQuery :=
  match parseTuple s with
  | .error e => Except.error e
  | .ok p => VersionSearchQuery.make p.major p.minor p.patch p.branch p.build_hash p.commit_time

/-! ### `BInfoMatcher.match`

Python values flowing through `attrgetter`/`==`/`max`/`min` in the loop are
modelled by `FVal`; `FVal.nil` is `None`.  `pyMax`/`pyMin` model `max()`/`min()`:
`ValueError` on an empty sequence, `TypeError` on an incomparable pair. -/

inductive FVal where
  | i (n : Int)
  | s (v : String)
  | d (v : PyDateTime)
  | nil
deriving DecidableEq, Repr

/-- Lexicographic comparison of character lists (Python string comparison is
lexicographic by code point). -/
def charsCmp : List Char → List Char → Ordering
  | [], [] => Ordering.eq
  | [], _ :: _ => Ordering.lt
  | _ :: _, [] => Ordering.gt
  | a :: as, b :: bs =>
      if a < b then Ordering.lt else if b < a then Ordering.gt else charsCmp as bs

def strCmp (a b : String) : Ordering := charsCmp a.data b.data

/-- Python rich comparison on the values the matcher handles: `none` when ordering
would raise `TypeError` (and `==` is `False`). -/
def cmpFV : FVal → FVal → Option Ordering
  | .i a, .i b => some (linCmp a b)
  | .s a, .s b => some (strCmp a b)
  | .d a, .d b => pyCmpDt a b
  | _, _ => none

/-- Python `==` on these values (never raises). -/
def pyEqB (a b : FVal) : Bool := cmpFV a b = some Ordering.eq

/-- Python `<=` where defined. -/
def pyLeB (a b : FVal) : Bool :=
  match cmpFV a b with
  | some Ordering.lt => true
  | some Ordering.eq => true
  | _ => false

/-- The fold inside `max`/`min`: keep the first extremal element, raise on an
incomparable pair. -/
def pyExtrGo (dir : Ordering) (best : FVal) : List FVal → Except Unit FVal
  | [] => .ok best
  | x :: xs =>
      match cmpFV x best with
      | none => .error ()
      | some o => pyExtrGo dir (if o = dir then x else best) xs

def pyMax : List FVal → Except Unit FVal
  | [] => .error ()
  | x :: xs => pyExtrGo Ordering.gt x xs

def pyMin : List FVal → Except Unit FVal
  | [] => .error ()
  | x :: xs => pyExtrGo Ordering.lt x xs

/-- The six places of the loop, in the tuple's (priority) order. -/
inductive MField where
  | build_hash
  | major
  | minor
  | patch
  | branch
  | commit_time
deriving DecidableEq, Repr

/-- `("build_hash", "major", "minor", "patch", "branch", "commit_time")`. -/
def fieldOrder : List MField := [.build_hash, .major, .minor, .patch, .branch, .commit_time]

/-- `attrgetter(place)` on a `BasicBuildInfo`. -/
def fieldGet : MField → BasicBuildInfo → FVal
  | .build_hash => fun v => .s v.build_hash
  | .major => fun v => .i (v.version.major : Int)
  | .minor => fun v => .i (v.version.minor : Int)
  | .patch => fun v => .i (v.version.patch : Int)
  | .branch => fun v => .s v.branch
  | .commit_time => fun v => .d v.commit_time

/-- `attrgetter(place)` on the query. -/
def queryVal (q : VersionSearchQuery) : MField → FVal
  | .build_hash =>
      match q.build_hash with
      | none => .nil
      | some s => .s s
  | .major =>
      match q.major with
      | .int n => .i n
      | .str s => .s s
  | .minor =>
      match q.minor with
      | .int n => .i n
      | .str s => .s s
  | .patch =>
      match q.patch with
      | .int n => .i n
      | .str s => .s s
  | .branch =>
      match q.branch with
      | none => .nil
      | some s => .s s
  | .commit_time =>
      match q.commit_time with
      | .dt d => .d d
      | .str s => .s s

/-- One iteration of the loop body (before the emptiness check). -/
def matchStep (vs : List BasicBuildInfo) (p : FVal) (get : BasicBuildInfo → FVal) :
    Except Unit (List BasicBuildInfo) :=
  if pyEqB p (.s ("^")) then
    match pyMax (vs.map get) with
    | .error e => .error e
    | .ok m => .ok (vs.filter (fun v => pyEqB (get v) m))
  else if pyEqB p (.s ("*")) || p = FVal.nil then .ok vs
  else if pyEqB p (.s ("-")) then
    match pyMin (vs.map get) with
    | .error e => .error e
    | .ok m => .ok (vs.filter (fun v => pyEqB (get v) m))
  else .ok (vs.filter (fun v => pyEqB (get v) p))

/-- The loop of `BInfoMatcher.match`, with its early `return ()` when the
candidate list becomes empty.  The `*`/`None` case is a `continue`: it jumps to
the next field **without** reaching the emptiness check (the check that matters
only after a reassignment of `versions` anyway, as the other branches filter). -/
def matchGo (q : VersionSearchQuery) : List MField → List BasicBuildInfo →
    Except Unit (List BasicBuildInfo)
  | [], vs => .ok vs
  | f :: fs, vs =>
      if pyEqB (queryVal q f) (.s ("*")) || queryVal q f = FVal.nil then matchGo q fs vs
      else
        match matchStep vs (queryVal q f) (fieldGet f) with
        | .error e => .error e
        | .ok vs2 => if vs2 = [] then .ok [] else matchGo q fs vs2

/-- `BInfoMatcher.match` on a catalog. -/
def bmatch (c : List BasicBuildInfo) (q : VersionSearchQuery) :
    Except Unit (List BasicBuildInfo) :=
  matchGo q fieldOrder c

structure BInfoMatcher where
  versions : List BasicBuildInfo
deriving DecidableEq, Repr

def BInfoMatcher.matchQuery (m : BInfoMatcher) (s : VersionSearchQuery) :
    Except Unit (List BasicBuildInfo) :=
  bmatch m.versions s

/-! ### Specification-side matcher (for the refinement claim C1)

`specMatch` is written from the spec's words (§4.2): progressive narrowing over
the fixed priority order, where `^` (resp. `-`) keeps exactly the candidates
whose field value is greater-or-equal (resp. less-or-equal) to every candidate's
value in the **current** candidate set — i.e. equals its maximum (minimum) —
`*`/absent filters nothing, and a literal keeps exact matches. -/

def specKeep (vs : List BasicBuildInfo) (p : FVal) (get : BasicBuildInfo → FVal) :
    List BasicBuildInfo :=
  if pyEqB p (.s ("*")) || p = FVal.nil then vs
  else if pyEqB p (.s ("^")) then vs.filter (fun v => vs.all (fun w => pyLeB (get w) (get v)))
  else if pyEqB p (.s ("-")) then vs.filter (fun v => vs.all (fun w => pyLeB (get v) (get w)))
  else vs.filter (fun v => pyEqB (get v) p)

def specMatch (c : List BasicBuildInfo) (q : VersionSearchQuery) : List BasicBuildInfo :=
  fieldOrder.foldl (fun vs f => specKeep vs (queryVal q f) (fieldGet f)) c

/-! ### Basic lemmas -/

deriving instance DecidableEq for Except

/-- Integer keys for the field values of one homogeneous column: while narrowing on
that column, `cmpFV` is the comparison of the keys.  (The matcher only computes
extrema on version numbers and on uniformly-aware commit times; string columns are
never extremized by a validated query.) -/
def keyedL (key : FVal → Int) (l : List FVal) : Prop :=
  ∀ a ∈ l, ∀ b ∈ l, cmpFV a b = some (linCmp (key a) (key b))

def iKey : FVal → Int
  | .i n => n
  | _ => 0

def dKey : FVal → Int
  | .d t => epochAdjMicro t
  | _ => 0

/-! ### The legality side conditions for the (amended) round-trip -/

/-- A present branch is non-empty and drawn from the grammar's branch class. -/
def goodBranchOpt : Option String → Prop
  | none => True
  | some s => s ≠ "" ∧ ∀ c ∈ s.data, branchClassCh c = true

/-- A present build hash is non-empty and alphanumeric (`[\d\w]`). -/
def goodHashOpt : Option String → Prop
  | none => True
  | some s => s ≠ "" ∧ ∀ c ∈ s.data, isWordCh c = true

/-- An integer version component is non-negative. -/
def goodNumLit : NumField → Prop
  | .int n => 0 ≤ n
  | .str _ => True

/-- A timestamp as `datetime` itself validates it, with a 4-digit year and a
whole-minute offset under 24 hours. -/
def validDT (d : PyDateTime) : Prop :=
  1 ≤ d.year ∧ d.year ≤ 9999 ∧ 1 ≤ d.month ∧ d.month ≤ 12 ∧ 1 ≤ d.day ∧
  d.day ≤ daysInMonth d.year d.month ∧ d.hour ≤ 23 ∧ d.minute ≤ 59 ∧ d.second ≤ 59 ∧
  (d.tz.getD 0).natAbs ≤ 1439

/-- A commit-time literal has no microseconds (the grammar's class has no `.`). -/
def goodCT : CTField → Prop
  | .str _ => True
  | .dt d => validDT d ∧ d.microsecond = 0


theorem linCmp_eq_iff {α : Type} [LinearOrder α] (a b : α) :
    linCmp a b = Ordering.eq ↔ a = b := by
  unfold linCmp
  split_ifs with h1 h2
  · simp [ne_of_lt h1]
  · simp [h2]
  · simp [h2]

theorem linCmp_gt_iff {α : Type} [LinearOrder α] (a b : α) :
    linCmp a b = Ordering.gt ↔ b < a := by
  unfold linCmp
  split_ifs with h1 h2
  · simp [asymm h1]
  · subst h2; simp
  · have : b < a := lt_of_le_of_ne (not_lt.mp h1) (Ne.symm h2)
    simp [this]

theorem linCmp_lt_iff {α : Type} [LinearOrder α] (a b : α) :
    linCmp a b = Ordering.lt ↔ a < b := by
  unfold linCmp
  split_ifs with h1 h2
  · simp [h1]
  · subst h2; simp
  · simp [h1]

theorem linCmp_self {α : Type} [LinearOrder α] (a : α) : linCmp a a = Ordering.eq := by
  rw [linCmp_eq_iff]

theorem charsCmp_eq_iff : ∀ (a b : List Char), charsCmp a b = Ordering.eq ↔ a = b
  | [], [] => by simp [charsCmp]
  | [], _ :: _ => by simp [charsCmp]
  | _ :: _, [] => by simp [charsCmp]
  | a :: as, b :: bs => by
      unfold charsCmp
      split_ifs with h1 h2
      · simp [ne_of_lt h1]
      · have : a ≠ b := fun h => absurd h2 (by rw [h]; exact lt_irrefl b)
        simp [this]
      · have hab : a = b := le_antisymm (not_lt.mp h2) (not_lt.mp h1)
        rw [charsCmp_eq_iff as bs]
        subst hab
        simp

theorem string_data_inj {a b : String} (h : a.data = b.data) : a = b := congrArg String.mk h

theorem strCmp_eq_iff (a b : String) : strCmp a b = Ordering.eq ↔ a = b := by
  unfold strCmp
  rw [charsCmp_eq_iff]
  exact ⟨fun h => string_data_inj h, fun h => by rw [h]⟩

theorem pyEqB_s_iff (a b : String) : pyEqB (.s a) (.s b) = true ↔ a = b := by
  unfold pyEqB cmpFV
  rw [decide_eq_true_iff, Option.some_inj, strCmp_eq_iff]

theorem pyEqB_i_iff (a b : Int) : pyEqB (.i a) (.i b) = true ↔ a = b := by
  unfold pyEqB cmpFV
  rw [decide_eq_true_iff, Option.some_inj, linCmp_eq_iff]

theorem digitCh_facts (n : Nat) (h : n < 10) :
    isDigitCh (digitCh n) = true ∧ chVal (digitCh n) = n := by
  interval_cases n <;> exact ⟨rfl, rfl⟩

theorem sym_not_digit : ∀ c ∈ symChars, isDigitCh c = false := by decide

theorem digit_not_sym (c : Char) (h : isDigitCh c = true) : c ∉ symChars := by
  intro hc
  rw [sym_not_digit c hc] at h
  exact Bool.noConfusion h

theorem natToCharsAux_fuel : ∀ (f1 f2 n : Nat), n < f1 → n < f2 →
    natToCharsAux f1 n = natToCharsAux f2 n := by
  intro f1
  induction f1 with
  | zero => intro f2 n h _; omega
  | succ f ih =>
      intro f2 n h1 h2
      cases f2 with
      | zero => omega
      | succ g =>
          by_cases hn : n < 10
          · simp [natToCharsAux, hn]
          · simp only [natToCharsAux, hn, if_false]
            rw [ih g (n / 10) (by omega) (by omega)]

theorem natToChars_unfold (n : Nat) :
    natToChars n = if n < 10 then [digitCh n] else natToChars (n / 10) ++ [digitCh (n % 10)] := by
  show natToCharsAux (n + 1) n = _
  by_cases h : n < 10
  · simp [natToCharsAux, h]
  · simp only [natToCharsAux, h, if_false]
    rw [natToCharsAux_fuel n (n / 10 + 1) (n / 10) (by omega) (by omega)]
    rfl

theorem natToChars_all_digits (n : Nat) : ∀ c ∈ natToChars n, isDigitCh c = true := by
  induction n using Nat.strong_induction_on with
  | _ n ih =>
      rw [natToChars_unfold]
      by_cases h : n < 10
      · simp only [h, if_true, List.mem_singleton]
        intro c hc
        subst hc
        exact (digitCh_facts n h).1
      · simp only [h, if_false]
        intro c hc
        rw [List.mem_append, List.mem_singleton] at hc
        rcases hc with hc | hc
        · exact ih (n / 10) (by omega) c hc
        · subst hc
          exact (digitCh_facts _ (by omega)).1

theorem natToChars_ne_nil (n : Nat) : natToChars n ≠ [] := by
  rw [natToChars_unfold]
  by_cases h : n < 10 <;> simp [h]

theorem charsToNatFrom_append (a : Nat) (l1 l2 : List Char) :
    charsToNatFrom a (l1 ++ l2) = charsToNatFrom (charsToNatFrom a l1) l2 := by
  unfold charsToNatFrom
  exact List.foldl_append _ _ _ _

theorem charsToNatFrom_natToChars (n : Nat) : ∀ a : Nat,
    charsToNatFrom a (natToChars n) = a * 10 ^ (natToChars n).length + n := by
  induction n using Nat.strong_induction_on with
  | _ n ih =>
      intro a
      rw [natToChars_unfold]
      by_cases h : n < 10
      · simp only [h, if_true, charsToNatFrom, List.foldl_cons, List.foldl_nil,
          List.length_singleton, pow_one, (digitCh_facts n h).2]
      · simp only [h, if_false]
        rw [charsToNatFrom_append, List.length_append, List.length_singleton]
        have hd : charsToNatFrom (charsToNatFrom a (natToChars (n / 10))) [digitCh (n % 10)]
            = charsToNatFrom a (natToChars (n / 10)) * 10 + (n % 10) := by
          simp [charsToNatFrom, (digitCh_facts (n % 10) (by omega)).2]
        rw [hd, ih (n / 10) (by omega) a]
        have h10 : 10 * (n / 10) + n % 10 = n := Nat.div_add_mod n 10
        have hpow : 10 ^ ((natToChars (n / 10)).length + 1)
            = 10 ^ (natToChars (n / 10)).length * 10 := pow_succ 10 _
        rw [hpow]
        ring_nf
        omega

theorem charsToNat_natToChars (n : Nat) : charsToNat (natToChars n) = n := by
  unfold charsToNat
  rw [charsToNatFrom_natToChars n 0]
  simp

theorem natToChars_length_le (k : Nat) : ∀ n : Nat, 1 ≤ k → n < 10 ^ k →
    (natToChars n).length ≤ k := by
  induction k with
  | zero => intro n h _; omega
  | succ k ih =>
      intro n _ h
      rw [natToChars_unfold]
      by_cases hn : n < 10
      · simp [hn]
      · simp only [hn, if_false, List.length_append, List.length_singleton]
        have hk1 : 1 ≤ k := by
          by_contra hk0
          have : k = 0 := by omega
          subst this
          simp at h
          omega
        have hdiv : n / 10 < 10 ^ k := by
          rw [Nat.div_lt_iff_lt_mul (by norm_num)]
          calc n < 10 ^ (k + 1) := h
            _ = 10 ^ k * 10 := pow_succ 10 k
        have := ih (n / 10) hk1 hdiv
        omega

theorem padTo_all_digits (k n : Nat) : ∀ c ∈ padTo k n, isDigitCh c = true := by
  intro c hc
  unfold padTo at hc
  rw [List.mem_append] at hc
  rcases hc with hc | hc
  · rw [List.eq_of_mem_replicate hc]
    rfl
  · exact natToChars_all_digits n c hc

theorem padTo_length (k n : Nat) (hk : 1 ≤ k) (h : n < 10 ^ k) : (padTo k n).length = k := by
  unfold padTo
  rw [List.length_append, List.length_replicate]
  have := natToChars_length_le k n hk h
  omega

theorem charsToNatFrom_replicate_zero : ∀ (m : Nat) (a : Nat),
    charsToNatFrom a (List.replicate m '0') = a * 10 ^ m
  | 0, a => by simp [charsToNatFrom]
  | m + 1, a => by
      rw [List.replicate_succ]
      show charsToNatFrom (a * 10 + chVal '0') (List.replicate m '0') = _
      rw [charsToNatFrom_replicate_zero m]
      have : chVal '0' = 0 := rfl
      rw [this, pow_succ]
      ring

theorem charsToNat_padTo (k n : Nat) : charsToNat (padTo k n) = n := by
  unfold charsToNat padTo
  rw [charsToNatFrom_append, charsToNatFrom_replicate_zero]
  have := charsToNatFrom_natToChars n 0
  simpa using this

theorem readND_append (l : List Char) : ∀ (acc : Nat) (r : List Char),
    (∀ c ∈ l, isDigitCh c = true) →
    readND l.length acc (l ++ r) = some (charsToNatFrom acc l, r) := by
  induction l with
  | nil => intro acc r _; rfl
  | cons c cs ih =>
      intro acc r h
      have hc : isDigitCh c = true := h c (by simp)
      show readND (cs.length + 1) acc (c :: (cs ++ r)) = _
      simp only [readND, hc, if_true]
      rw [ih (acc * 10 + chVal c) r (fun x hx => h x (by simp [hx]))]
      rfl

theorem readND_padTo (k n : Nat) (r : List Char) (hk : 1 ≤ k) (h : n < 10 ^ k) :
    readND k 0 (padTo k n ++ r) = some (n, r) := by
  have hlen := padTo_length k n hk h
  have := readND_append (padTo k n) 0 r (padTo_all_digits k n)
  rw [hlen] at this
  rw [this]
  have : charsToNatFrom 0 (padTo k n) = n := charsToNat_padTo k n
  rw [this]

theorem takeWhile_append_split (p : Char → Bool) (l r : List Char)
    (hl : ∀ c ∈ l, p c = true) (hr : ∀ c, r.head? = some c → p c = false) :
    (l ++ r).takeWhile p = l ∧ (l ++ r).dropWhile p = r := by
  induction l with
  | nil =>
      simp only [List.nil_append]
      cases r with
      | nil => exact ⟨rfl, rfl⟩
      | cons c cs =>
          have hc := hr c rfl
          rw [List.takeWhile_cons, List.dropWhile_cons]
          simp [hc]
  | cons a as ih =>
      have ha := hl a (by simp)
      have h2 := ih (fun c hc => hl c (by simp [hc]))
      simp only [List.cons_append, List.takeWhile_cons, List.dropWhile_cons, ha, if_true]
      exact ⟨by rw [h2.1], by rw [h2.2]⟩

/-! ### Extremum machinery for the matcher -/

theorem bool_ext {a b : Bool} (h : a = true ↔ b = true) : a = b := by
  cases a <;> cases b <;> simp_all

theorem keyedL_of_i (l : List FVal) (h : ∀ x ∈ l, ∃ n, x = FVal.i n) : keyedL iKey l := by
  intro a ha b hb
  obtain ⟨n, rfl⟩ := h a ha
  obtain ⟨m, rfl⟩ := h b hb
  rfl

theorem keyedL_of_d (l : List FVal) (h : ∀ x ∈ l, ∃ t, x = FVal.d t ∧ t.tz.isSome = true) :
    keyedL dKey l := by
  intro a ha b hb
  obtain ⟨t, rfl, ht⟩ := h a ha
  obtain ⟨u, rfl, hu⟩ := h b hb
  obtain ⟨x, hx⟩ := Option.isSome_iff_exists.mp ht
  obtain ⟨y, hy⟩ := Option.isSome_iff_exists.mp hu
  show pyCmpDt t u = some (linCmp (dKey (FVal.d t)) (dKey (FVal.d u)))
  unfold pyCmpDt
  rw [hx, hy]
  rfl

theorem pyEqB_keyed {key : FVal → Int} {l : List FVal} (hk : keyedL key l)
    {a b : FVal} (ha : a ∈ l) (hb : b ∈ l) : pyEqB a b = true ↔ key a = key b := by
  unfold pyEqB
  rw [decide_eq_true_iff, hk a ha b hb, Option.some_inj, linCmp_eq_iff]

theorem pyLeB_keyed {key : FVal → Int} {l : List FVal} (hk : keyedL key l)
    {a b : FVal} (ha : a ∈ l) (hb : b ∈ l) : pyLeB a b = true ↔ key a ≤ key b := by
  unfold pyLeB
  rw [hk a ha b hb]
  rcases h : linCmp (key a) (key b) with _ | _ | _
  · simp only []
    exact ⟨fun _ => le_of_lt ((linCmp_lt_iff _ _).mp h), fun _ => by trivial⟩
  · simp only []
    exact ⟨fun _ => le_of_eq ((linCmp_eq_iff _ _).mp h), fun _ => by trivial⟩
  · simp only []
    have hba := (linCmp_gt_iff _ _).mp h
    exact ⟨fun hf => Bool.noConfusion hf, fun hle => absurd hle (not_le.mpr hba)⟩

theorem pyExtrGo_max (key : FVal → Int) (l0 : List FVal) (hk : keyedL key l0) :
    ∀ (xs : List FVal) (best : FVal), best ∈ l0 → (∀ x ∈ xs, x ∈ l0) →
    ∃ m, pyExtrGo Ordering.gt best xs = .ok m ∧ m ∈ l0 ∧ key best ≤ key m ∧
      ∀ x ∈ xs, key x ≤ key m := by
  intro xs
  induction xs with
  | nil => intro best hb _; exact ⟨best, rfl, hb, le_refl _, by simp⟩
  | cons x xs ih =>
      intro best hb hxs
      have hx : x ∈ l0 := hxs x (by simp)
      have hcmp := hk x hx best hb
      rw [pyExtrGo, hcmp]
      by_cases hgt : linCmp (key x) (key best) = Ordering.gt
      · obtain ⟨m, h1, h2, h3, h4⟩ := ih x hx (fun y hy => hxs y (List.mem_cons_of_mem _ hy))
        refine ⟨m, ?_, h2, ?_, ?_⟩
        · simpa [hgt] using h1
        · exact le_trans (le_of_lt ((linCmp_gt_iff _ _).mp hgt)) h3
        · intro y hy
          rcases List.mem_cons.mp hy with hy | hy
          · subst hy; exact h3
          · exact h4 y hy
      · obtain ⟨m, h1, h2, h3, h4⟩ := ih best hb (fun y hy => hxs y (List.mem_cons_of_mem _ hy))
        refine ⟨m, ?_, h2, h3, ?_⟩
        · simpa [hgt] using h1
        · intro y hy
          rcases List.mem_cons.mp hy with hy | hy
          · subst hy
            have : ¬ key best < key y := fun hlt => hgt ((linCmp_gt_iff _ _).mpr hlt)
            exact le_trans (not_lt.mp this) h3
          · exact h4 y hy

theorem pyExtrGo_min (key : FVal → Int) (l0 : List FVal) (hk : keyedL key l0) :
    ∀ (xs : List FVal) (best : FVal), best ∈ l0 → (∀ x ∈ xs, x ∈ l0) →
    ∃ m, pyExtrGo Ordering.lt best xs = .ok m ∧ m ∈ l0 ∧ key m ≤ key best ∧
      ∀ x ∈ xs, key m ≤ key x := by
  intro xs
  induction xs with
  | nil => intro best hb _; exact ⟨best, rfl, hb, le_refl _, by simp⟩
  | cons x xs ih =>
      intro best hb hxs
      have hx : x ∈ l0 := hxs x (by simp)
      have hcmp := hk x hx best hb
      rw [pyExtrGo, hcmp]
      by_cases hlt : linCmp (key x) (key best) = Ordering.lt
      · obtain ⟨m, h1, h2, h3, h4⟩ := ih x hx (fun y hy => hxs y (List.mem_cons_of_mem _ hy))
        refine ⟨m, ?_, h2, ?_, ?_⟩
        · simpa [hlt] using h1
        · exact le_trans h3 (le_of_lt ((linCmp_lt_iff _ _).mp hlt))
        · intro y hy
          rcases List.mem_cons.mp hy with hy | hy
          · subst hy; exact h3
          · exact h4 y hy
      · obtain ⟨m, h1, h2, h3, h4⟩ := ih best hb (fun y hy => hxs y (List.mem_cons_of_mem _ hy))
        refine ⟨m, ?_, h2, h3, ?_⟩
        · simpa [hlt] using h1
        · intro y hy
          rcases List.mem_cons.mp hy with hy | hy
          · subst hy
            have : ¬ key y < key best := fun h => hlt ((linCmp_lt_iff _ _).mpr h)
            exact le_trans h3 (not_lt.mp this)
          · exact h4 y hy

theorem pyMax_keyed (key : FVal → Int) (l : List FVal) (hne : l ≠ []) (hk : keyedL key l) :
    ∃ m, pyMax l = .ok m ∧ m ∈ l ∧ ∀ x ∈ l, key x ≤ key m := by
  cases l with
  | nil => exact absurd rfl hne
  | cons x xs =>
      obtain ⟨m, h1, h2, h3, h4⟩ :=
        pyExtrGo_max key (x :: xs) hk xs x (by simp) (fun y hy => List.mem_cons_of_mem _ hy)
      refine ⟨m, h1, h2, ?_⟩
      intro y hy
      rcases List.mem_cons.mp hy with hy | hy
      · subst hy; exact h3
      · exact h4 y hy

theorem pyMin_keyed (key : FVal → Int) (l : List FVal) (hne : l ≠ []) (hk : keyedL key l) :
    ∃ m, pyMin l = .ok m ∧ m ∈ l ∧ ∀ x ∈ l, key m ≤ key x := by
  cases l with
  | nil => exact absurd rfl hne
  | cons x xs =>
      obtain ⟨m, h1, h2, h3, h4⟩ :=
        pyExtrGo_min key (x :: xs) hk xs x (by simp) (fun y hy => List.mem_cons_of_mem _ hy)
      refine ⟨m, h1, h2, ?_⟩
      intro y hy
      rcases List.mem_cons.mp hy with hy | hy
      · subst hy; exact h3
      · exact h4 y hy

theorem pyEqB_s_elim {p : FVal} {s : String} (h : pyEqB p (.s s) = true) : p = .s s := by
  cases p with
  | i n => exact absurd h (by unfold pyEqB cmpFV; simp)
  | d t => exact absurd h (by unfold pyEqB cmpFV; simp)
  | nil => exact absurd h (by unfold pyEqB cmpFV; simp)
  | s v => rw [(pyEqB_s_iff v s).mp h]

/-! ### The matcher loop agrees with the specification's narrowing -/

theorem pyEqB_i_s (n : Int) (t : String) : pyEqB (.i n) (.s t) = false := rfl

theorem pyEqB_d_s (d : PyDateTime) (t : String) : pyEqB (.d d) (.s t) = false := rfl

theorem pyEqB_s_false {a b : String} (h : a ≠ b) : pyEqB (.s a) (.s b) = false := by
  cases hh : pyEqB (.s a) (.s b)
  · rfl
  · exact absurd ((pyEqB_s_iff a b).mp hh) h

theorem specKeep_nil (p : FVal) (get : BasicBuildInfo → FVal) : specKeep [] p get = [] := by
  unfold specKeep
  split_ifs <;> rfl

theorem specKeep_subset (vs : List BasicBuildInfo) (p : FVal) (get : BasicBuildInfo → FVal) :
    specKeep vs p get ⊆ vs := by
  unfold specKeep
  split_ifs
  · exact fun a h => h
  all_goals exact fun a ha => (List.mem_filter.mp ha).1

theorem matchStep_wild (vs : List BasicBuildInfo) (p : FVal) (get : BasicBuildInfo → FVal)
    (hp : pyEqB p (.s ("*")) = true ∨ p = FVal.nil) :
    matchStep vs p get = .ok vs := by
  have hb : (pyEqB p (.s ("*")) || decide (p = FVal.nil)) = true := by
    rcases hp with h | h <;> simp [h]
  have hcaret : pyEqB p (.s ("^")) = false := by
    rcases hp with h | h
    · rw [pyEqB_s_elim h]; decide
    · rw [h]; decide
  simp [matchStep, hcaret, hb]

theorem specKeep_wild (vs : List BasicBuildInfo) (p : FVal) (get : BasicBuildInfo → FVal)
    (hp : pyEqB p (.s ("*")) = true ∨ p = FVal.nil) :
    specKeep vs p get = vs := by
  have hb : (pyEqB p (.s ("*")) || decide (p = FVal.nil)) = true := by
    rcases hp with h | h <;> simp [h]
  simp [specKeep, hb]

theorem matchStep_lit (vs : List BasicBuildInfo) (p : FVal) (get : BasicBuildInfo → FVal)
    (hc : pyEqB p (.s ("^")) = false)
    (hw : (pyEqB p (.s ("*")) || decide (p = FVal.nil)) = false)
    (hd : pyEqB p (.s ("-")) = false) :
    matchStep vs p get = .ok (vs.filter (fun v => pyEqB (get v) p)) ∧
    specKeep vs p get = vs.filter (fun v => pyEqB (get v) p) := by
  constructor
  · simp [matchStep, hc, hw, hd]
  · simp [specKeep, hc, hw, hd]

theorem matchStep_caret_spec (key : FVal → Int) (vs : List BasicBuildInfo)
    (get : BasicBuildInfo → FVal) (hne : vs ≠ []) (hk : keyedL key (vs.map get)) :
    matchStep vs (.s ("^")) get = .ok (specKeep vs (.s ("^")) get) := by
  have hmapne : vs.map get ≠ [] := by simpa using hne
  obtain ⟨m, hmax, hmem, hbd⟩ := pyMax_keyed key _ hmapne hk
  have heq : ∀ v ∈ vs, pyEqB (get v) m = vs.all (fun w => pyLeB (get w) (get v)) := by
    intro v hv
    have hgv : get v ∈ vs.map get := List.mem_map_of_mem get hv
    apply bool_ext
    rw [pyEqB_keyed hk hgv hmem, List.all_eq_true]
    constructor
    · intro hkey w hw2
      rw [pyLeB_keyed hk (List.mem_map_of_mem get hw2) hgv, hkey]
      exact hbd _ (List.mem_map_of_mem get hw2)
    · intro hall
      obtain ⟨w0, hw0, hw0e⟩ := List.mem_map.mp hmem
      have h1 : key (get v) ≤ key m := hbd _ hgv
      have h2 : key m ≤ key (get v) := by
        rw [← hw0e]
        exact (pyLeB_keyed hk (List.mem_map_of_mem get hw0) hgv).mp (hall w0 hw0)
      exact le_antisymm h1 h2
  have hfil := List.filter_congr heq
  have c1 : pyEqB (FVal.s ("^")) (FVal.s ("^")) = true := by decide
  have cb : (pyEqB (FVal.s ("^")) (.s ("*")) || decide (FVal.s ("^") = FVal.nil)) = false := by
    decide
  simp only [matchStep, specKeep, c1, cb, if_true, if_false, Bool.false_eq_true, hmax]
  rw [hfil]

theorem matchStep_dash_spec (key : FVal → Int) (vs : List BasicBuildInfo)
    (get : BasicBuildInfo → FVal) (hne : vs ≠ []) (hk : keyedL key (vs.map get)) :
    matchStep vs (.s ("-")) get = .ok (specKeep vs (.s ("-")) get) := by
  have hmapne : vs.map get ≠ [] := by simpa using hne
  obtain ⟨m, hmin, hmem, hbd⟩ := pyMin_keyed key _ hmapne hk
  have heq : ∀ v ∈ vs, pyEqB (get v) m = vs.all (fun w => pyLeB (get v) (get w)) := by
    intro v hv
    have hgv : get v ∈ vs.map get := List.mem_map_of_mem get hv
    apply bool_ext
    rw [pyEqB_keyed hk hgv hmem, List.all_eq_true]
    constructor
    · intro hkey w hw2
      rw [pyLeB_keyed hk hgv (List.mem_map_of_mem get hw2), hkey]
      exact hbd _ (List.mem_map_of_mem get hw2)
    · intro hall
      obtain ⟨w0, hw0, hw0e⟩ := List.mem_map.mp hmem
      have h1 : key m ≤ key (get v) := hbd _ hgv
      have h2 : key (get v) ≤ key m := by
        rw [← hw0e]
        exact (pyLeB_keyed hk hgv (List.mem_map_of_mem get hw0)).mp (hall w0 hw0)
      exact le_antisymm h2 h1
  have hfil := List.filter_congr heq
  have c1 : pyEqB (FVal.s ("-")) (FVal.s ("^")) = false := by decide
  have cb : (pyEqB (FVal.s ("-")) (.s ("*")) || decide (FVal.s ("-") = FVal.nil)) = false := by
    decide
  have c3 : pyEqB (FVal.s ("-")) (FVal.s ("-")) = true := by decide
  simp only [matchStep, specKeep, c1, cb, c3, if_true, if_false, Bool.false_eq_true, hmin]
  rw [hfil]

theorem foldl_specKeep_nil (q : VersionSearchQuery) : ∀ fs : List MField,
    fs.foldl (fun vs f => specKeep vs (queryVal q f) (fieldGet f)) [] = []
  | [] => rfl
  | f :: fs => by
      simp only [List.foldl_cons, specKeep_nil]
      exact foldl_specKeep_nil q fs

theorem matchGo_spec (q : VersionSearchQuery) (c : List BasicBuildInfo) :
    ∀ (fs : List MField) (vs : List BasicBuildInfo), vs ⊆ c → vs ≠ [] →
    (∀ f ∈ fs, ∀ ws : List BasicBuildInfo, ws ≠ [] → ws ⊆ c →
      matchStep ws (queryVal q f) (fieldGet f) = .ok (specKeep ws (queryVal q f) (fieldGet f))) →
    matchGo q fs vs = .ok (fs.foldl (fun vs f => specKeep vs (queryVal q f) (fieldGet f)) vs) := by
  intro fs
  induction fs with
  | nil => intro vs _ _ _; rfl
  | cons f fs ih =>
      intro vs hsub hne hstep
      simp only [List.foldl_cons]
      by_cases hw : pyEqB (queryVal q f) (.s ("*")) = true ∨ queryVal q f = FVal.nil
      · have hb : (pyEqB (queryVal q f) (.s ("*")) || decide (queryVal q f = FVal.nil)) = true := by
          rcases hw with h | h <;> simp [h]
        rw [specKeep_wild vs _ _ hw]
        simp only [matchGo, hb, if_true]
        exact ih vs hsub hne (fun g hg => hstep g (List.mem_cons_of_mem _ hg))
      · have ha : pyEqB (queryVal q f) (.s ("*")) = false := by
          cases h : pyEqB (queryVal q f) (.s ("*"))
          · rfl
          · exact absurd (Or.inl h) hw
        have hb : (pyEqB (queryVal q f) (.s ("*")) || decide (queryVal q f = FVal.nil)) = false := by
          have hn : ¬(queryVal q f = FVal.nil) := fun h => hw (Or.inr h)
          simp [ha, hn]
        simp only [matchGo, hb, Bool.false_eq_true, if_false]
        rw [hstep f (by simp) vs hne hsub]
        show (if specKeep vs (queryVal q f) (fieldGet f) = [] then Except.ok []
              else matchGo q fs (specKeep vs (queryVal q f) (fieldGet f)))
          = Except.ok (List.foldl (fun vs f => specKeep vs (queryVal q f) (fieldGet f))
              (specKeep vs (queryVal q f) (fieldGet f)) fs)
        by_cases hnil : specKeep vs (queryVal q f) (fieldGet f) = []
        · rw [if_pos hnil, hnil, foldl_specKeep_nil]
        · rw [if_neg hnil]
          exact ih _ (List.Subset.trans (specKeep_subset _ _ _) hsub) hnil
            (fun g hg => hstep g (List.mem_cons_of_mem _ hg))

/-! ### Facts extracted from a validated query -/

theorem make_ok_elim {a b c2 : NumField} {br bh : Option String} {ct : CTField}
    {q : VersionSearchQuery}
    (h : VersionSearchQuery.make a b c2 br bh ct = .ok q) :
    a.isBadStr = false ∧ b.isBadStr = false ∧ c2.isBadStr = false ∧ ct.isBadStr = false ∧
    optBad bh = false ∧ optBad br = false ∧ q = ⟨a, b, c2, br, bh, ct⟩ := by
  unfold VersionSearchQuery.make at h
  split_ifs at h with h1 h2 h3 h4 h5 h6
  rw [Bool.not_eq_true] at h1 h2 h3 h4 h5 h6
  exact ⟨h1, h2, h3, h4, h5, h6, (Except.ok.inj h).symm⟩

theorem symStr_cases {s : String} (h : symStr s = true) : s = "^" ∨ s = "*" ∨ s = "-" := by
  have h2 : (s = "^" ∨ s = "*") ∨ s = "-" := by simpa [symStr] using h
  tauto

theorem numField_good {f : NumField} (h : f.isBadStr = false) :
    (∃ n, f = .int n) ∨ f = .str ("^") ∨ f = .str ("*") ∨ f = .str ("-") := by
  cases f with
  | int n => exact Or.inl ⟨n, rfl⟩
  | str s =>
      have hs : symStr s = true := by
        have := h
        unfold NumField.isBadStr at this
        simpa using this
      rcases symStr_cases hs with h1 | h1 | h1 <;> subst h1
      · exact Or.inr (Or.inl rfl)
      · exact Or.inr (Or.inr (Or.inl rfl))
      · exact Or.inr (Or.inr (Or.inr rfl))

theorem ctField_good {f : CTField} (h : f.isBadStr = false) :
    (∃ d, f = .dt d) ∨ f = .str ("^") ∨ f = .str ("*") ∨ f = .str ("-") := by
  cases f with
  | dt d => exact Or.inl ⟨d, rfl⟩
  | str s =>
      have hs : symStr s = true := by
        have := h
        unfold CTField.isBadStr at this
        simpa using this
      rcases symStr_cases hs with h1 | h1 | h1 <;> subst h1
      · exact Or.inr (Or.inl rfl)
      · exact Or.inr (Or.inr (Or.inl rfl))
      · exact Or.inr (Or.inr (Or.inr rfl))

theorem opt_good {o : Option String} (h : optBad o = false) :
    o = none ∨ ∃ s, o = some s ∧ (s ≠ "^" ∧ s ≠ "-" ∨ s = "") := by
  cases o with
  | none => exact Or.inl rfl
  | some s =>
      refine Or.inr ⟨s, rfl, ?_⟩
      by_cases hs : s = ""
      · exact Or.inr hs
      · left
        unfold optBad at h
        simp [hs] at h
        exact h

theorem step_eq_spec_lit (vs : List BasicBuildInfo) (p : FVal) (get : BasicBuildInfo → FVal)
    (hc : pyEqB p (.s ("^")) = false)
    (hw : (pyEqB p (.s ("*")) || decide (p = FVal.nil)) = false)
    (hd : pyEqB p (.s ("-")) = false) :
    matchStep vs p get = .ok (specKeep vs p get) := by
  obtain ⟨h1, h2⟩ := matchStep_lit vs p get hc hw hd
  rw [h1, h2]

/-- For a query that passed `__post_init__`, every narrowing step of the loop
computes exactly the specification's narrowing of the current candidate set. -/
theorem stepSpec_of_valid (q : VersionSearchQuery)
    (hq : VersionSearchQuery.make q.major q.minor q.patch q.branch q.build_hash q.commit_time
      = .ok q)
    (c : List BasicBuildInfo) (hutc : ∀ v ∈ c, (v.commit_time.tz).isSome = true)
    (f : MField) : ∀ ws : List BasicBuildInfo, ws ≠ [] → ws ⊆ c →
      matchStep ws (queryVal q f) (fieldGet f) = .ok (specKeep ws (queryVal q f) (fieldGet f)) := by
  obtain ⟨hma, hmi, hpa, hct, hbh, hbr, _⟩ := make_ok_elim hq
  intro ws hne hsub
  cases f with
  | build_hash =>
      rcases opt_good hbh with ho | ⟨s, ho, hs⟩
      · have hv : queryVal q MField.build_hash = FVal.nil := by simp [queryVal, ho]
        rw [hv, matchStep_wild _ _ _ (Or.inr rfl), specKeep_wild _ _ _ (Or.inr rfl)]
      · have hv : queryVal q MField.build_hash = FVal.s s := by simp [queryVal, ho]
        rw [hv]
        by_cases hstar : s = "*"
        · subst hstar
          rw [matchStep_wild _ _ _ (Or.inl (by decide)),
            specKeep_wild _ _ _ (Or.inl (by decide))]
        · have hs1 : s ≠ "^" := by
            rcases hs with ⟨h1, _⟩ | h1
            · exact h1
            · subst h1; decide
          have hs3 : s ≠ "-" := by
            rcases hs with ⟨_, h1⟩ | h1
            · exact h1
            · subst h1; decide
          exact step_eq_spec_lit ws _ _ (pyEqB_s_false hs1)
            (by simp [pyEqB_s_false hstar]) (pyEqB_s_false hs3)
  | branch =>
      rcases opt_good hbr with ho | ⟨s, ho, hs⟩
      · have hv : queryVal q MField.branch = FVal.nil := by simp [queryVal, ho]
        rw [hv, matchStep_wild _ _ _ (Or.inr rfl), specKeep_wild _ _ _ (Or.inr rfl)]
      · have hv : queryVal q MField.branch = FVal.s s := by simp [queryVal, ho]
        rw [hv]
        by_cases hstar : s = "*"
        · subst hstar
          rw [matchStep_wild _ _ _ (Or.inl (by decide)),
            specKeep_wild _ _ _ (Or.inl (by decide))]
        · have hs1 : s ≠ "^" := by
            rcases hs with ⟨h1, _⟩ | h1
            · exact h1
            · subst h1; decide
          have hs3 : s ≠ "-" := by
            rcases hs with ⟨_, h1⟩ | h1
            · exact h1
            · subst h1; decide
          exact step_eq_spec_lit ws _ _ (pyEqB_s_false hs1)
            (by simp [pyEqB_s_false hstar]) (pyEqB_s_false hs3)
  | major =>
      have hkey : keyedL iKey (ws.map (fieldGet MField.major)) := by
        apply keyedL_of_i
        intro x hx
        obtain ⟨v, _, rfl⟩ := List.mem_map.mp hx
        exact ⟨_, rfl⟩
      rcases numField_good hma with ⟨n, hn⟩ | hn | hn | hn
      · rw [show queryVal q MField.major = FVal.i n by simp [queryVal, hn]]
        exact step_eq_spec_lit ws _ _ (pyEqB_i_s n _) (by simp [pyEqB_i_s]) (pyEqB_i_s n _)
      · rw [show queryVal q MField.major = FVal.s ("^") by simp [queryVal, hn]]
        exact matchStep_caret_spec iKey ws _ hne hkey
      · rw [show queryVal q MField.major = FVal.s ("*") by simp [queryVal, hn]]
        rw [matchStep_wild _ _ _ (Or.inl (by decide)), specKeep_wild _ _ _ (Or.inl (by decide))]
      · rw [show queryVal q MField.major = FVal.s ("-") by simp [queryVal, hn]]
        exact matchStep_dash_spec iKey ws _ hne hkey
  | minor =>
      have hkey : keyedL iKey (ws.map (fieldGet MField.minor)) := by
        apply keyedL_of_i
        intro x hx
        obtain ⟨v, _, rfl⟩ := List.mem_map.mp hx
        exact ⟨_, rfl⟩
      rcases numField_good hmi with ⟨n, hn⟩ | hn | hn | hn
      · rw [show queryVal q MField.minor = FVal.i n by simp [queryVal, hn]]
        exact step_eq_spec_lit ws _ _ (pyEqB_i_s n _) (by simp [pyEqB_i_s]) (pyEqB_i_s n _)
      · rw [show queryVal q MField.minor = FVal.s ("^") by simp [queryVal, hn]]
        exact matchStep_caret_spec iKey ws _ hne hkey
      · rw [show queryVal q MField.minor = FVal.s ("*") by simp [queryVal, hn]]
        rw [matchStep_wild _ _ _ (Or.inl (by decide)), specKeep_wild _ _ _ (Or.inl (by decide))]
      · rw [show queryVal q MField.minor = FVal.s ("-") by simp [queryVal, hn]]
        exact matchStep_dash_spec iKey ws _ hne hkey
  | patch =>
      have hkey : keyedL iKey (ws.map (fieldGet MField.patch)) := by
        apply keyedL_of_i
        intro x hx
        obtain ⟨v, _, rfl⟩ := List.mem_map.mp hx
        exact ⟨_, rfl⟩
      rcases numField_good hpa with ⟨n, hn⟩ | hn | hn | hn
      · rw [show queryVal q MField.patch = FVal.i n by simp [queryVal, hn]]
        exact step_eq_spec_lit ws _ _ (pyEqB_i_s n _) (by simp [pyEqB_i_s]) (pyEqB_i_s n _)
      · rw [show queryVal q MField.patch = FVal.s ("^") by simp [queryVal, hn]]
        exact matchStep_caret_spec iKey ws _ hne hkey
      · rw [show queryVal q MField.patch = FVal.s ("*") by simp [queryVal, hn]]
        rw [matchStep_wild _ _ _ (Or.inl (by decide)), specKeep_wild _ _ _ (Or.inl (by decide))]
      · rw [show queryVal q MField.patch = FVal.s ("-") by simp [queryVal, hn]]
        exact matchStep_dash_spec iKey ws _ hne hkey
  | commit_time =>
      have hkey : keyedL dKey (ws.map (fieldGet MField.commit_time)) := by
        apply keyedL_of_d
        intro x hx
        obtain ⟨v, hv2, rfl⟩ := List.mem_map.mp hx
        exact ⟨v.commit_time, rfl, hutc v (hsub hv2)⟩
      rcases ctField_good hct with ⟨d, hd⟩ | hd | hd | hd
      · rw [show queryVal q MField.commit_time = FVal.d d by simp [queryVal, hd]]
        exact step_eq_spec_lit ws _ _ (pyEqB_d_s d _) (by simp [pyEqB_d_s]) (pyEqB_d_s d _)
      · rw [show queryVal q MField.commit_time = FVal.s ("^") by simp [queryVal, hd]]
        exact matchStep_caret_spec dKey ws _ hne hkey
      · rw [show queryVal q MField.commit_time = FVal.s ("*") by simp [queryVal, hd]]
        rw [matchStep_wild _ _ _ (Or.inl (by decide)), specKeep_wild _ _ _ (Or.inl (by decide))]
      · rw [show queryVal q MField.commit_time = FVal.s ("-") by simp [queryVal, hd]]
        exact matchStep_dash_spec dKey ws _ hne hkey

/-- Core refinement: on a non-empty catalog of records with timezone-aware commit
times, `BInfoMatcher.match` returns (without an exception) exactly the
specification's progressive narrowing in the fixed priority order. -/
theorem bmatch_eq_specMatch (c : List BasicBuildInfo) (q : VersionSearchQuery)
    (hne : c ≠ [])
    (hq : VersionSearchQuery.make q.major q.minor q.patch q.branch q.build_hash q.commit_time
      = .ok q)
    (hutc : ∀ v ∈ c, (v.commit_time.tz).isSome = true) :
    bmatch c q = .ok (specMatch c q) := by
  unfold bmatch specMatch
  exact matchGo_spec q c fieldOrder c (fun a h => h) hne
    (fun f _ => stepSpec_of_valid q hq c hutc f)

/-! ### Round-trip: token-level parsing of serialized queries -/

theorem head_cons_eq {α : Type} {a c : α} {l : List α} (h : (a :: l).head? = some c) : c = a := by
  simpa using h.symm

theorem numTok_sym (c : Char) (hc : c ∈ symChars) (r : List Char) :
    numTok (c :: r) = some ([c], r) := by
  simp only [numTok]
  rw [if_pos hc]

theorem numTok_digits (l : List Char) (hl : l ≠ []) (hd : ∀ c ∈ l, isDigitCh c = true)
    (r : List Char) (hr : ∀ c, r.head? = some c → isDigitCh c = false) :
    numTok (l ++ r) = some (l, r) := by
  cases l with
  | nil => exact absurd rfl hl
  | cons c cs =>
      have hc : isDigitCh c = true := hd c (by simp)
      have hcs : c ∉ symChars := digit_not_sym c hc
      show numTok (c :: (cs ++ r)) = _
      simp only [numTok]
      rw [if_neg hcs, if_pos hc]
      obtain ⟨h1, h2⟩ := takeWhile_append_split isDigitCh (c :: cs) r hd hr
      rw [show c :: (cs ++ r) = (c :: cs) ++ r from rfl, h1, h2]

theorem optMarked_none (mark : Char) (cls : Char → Bool) (l : List Char)
    (h : ∀ c, l.head? = some c → c ≠ mark) :
    optMarked mark cls l = some (none, l) := by
  cases l with
  | nil => rfl
  | cons c r =>
      simp only [optMarked]
      rw [if_neg (h c rfl)]

theorem optMarked_some (mark : Char) (cls : Char → Bool) (tok r : List Char)
    (hne : tok ≠ []) (hcl : ∀ c ∈ tok, cls c = true)
    (hr : ∀ c, r.head? = some c → cls c = false) :
    optMarked mark cls (mark :: (tok ++ r)) = some (some tok, r) := by
  simp only [optMarked]
  rw [if_pos trivial]
  obtain ⟨h1, h2⟩ := takeWhile_append_split cls tok r hcl hr
  rw [h1, h2, if_neg hne]

theorem commitEnd_long (l : List Char) (h2 : 2 ≤ l.length)
    (hcl : ∀ c ∈ l, ctClassCh c = true) :
    commitEnd ('@' :: l) = some (some l) := by
  cases l with
  | nil => simp at h2
  | cons c1 rest =>
      cases rest with
      | nil => simp at h2
      | cons c2 r2 =>
          simp only [commitEnd]
          rw [if_pos (List.all_eq_true.mpr hcl)]

theorem data_ne_nil {s : String} (h : s ≠ "") : s.data ≠ [] := by
  intro hd
  exact h (string_data_inj (by rw [hd]))

theorem ctClass_of_digit {c : Char} (h : isDigitCh c = true) : ctClassCh c = true := by
  unfold ctClassCh
  rw [h]
  rfl

/-! ### `fromisoformat` inverts `str(datetime)` on valid zero-microsecond datetimes -/

theorem pad2_eq {n : Nat} (h : n < 100) : pad2 n = [digitCh (n / 10), digitCh (n % 10)] := by
  by_cases h10 : n < 10
  · unfold pad2 padTo
    rw [natToChars_unfold n, if_pos h10]
    rw [show n / 10 = 0 by omega, show n % 10 = n by omega]
    rfl
  · unfold pad2 padTo
    rw [natToChars_unfold n, if_neg h10, natToChars_unfold (n / 10),
      if_pos (by omega : n / 10 < 10)]
    rfl

theorem readND2_pad2 (n : Nat) (h : n < 100) (r : List Char) :
    readND 2 0 (pad2 n ++ r) = some (n, r) :=
  readND_padTo 2 n r (by omega) (by omega)

theorem parseTzPart_offset (off : Int) (h : off.natAbs ≤ 1439) :
    parseTzPart (offsetChars (some off)) = some (some off) := by
  have hH : off.natAbs / 60 ≤ 23 := by omega
  have hM : off.natAbs % 60 ≤ 59 := by omega
  have e2 := readND2_pad2 (off.natAbs % 60) (by omega) ([] : List Char)
  rw [List.append_nil] at e2
  have e1 := readND2_pad2 (off.natAbs / 60) (by omega) (':' :: pad2 (off.natAbs % 60))
  by_cases hoff : off < 0
  · have hoc : offsetChars (some off)
        = '-' :: (pad2 (off.natAbs / 60) ++ ':' :: pad2 (off.natAbs % 60)) := by
      simp [offsetChars, hoff]
    rw [hoc]
    simp [parseTzPart, e1, e2, hH, hM, -Int.natCast_natAbs]
    omega
  · have hoc : offsetChars (some off)
        = '+' :: (pad2 (off.natAbs / 60) ++ ':' :: pad2 (off.natAbs % 60)) := by
      simp [offsetChars, hoff]
    rw [hoc]
    simp [parseTzPart, e1, e2, hH, hM, -Int.natCast_natAbs]
    omega

theorem parseTimePart_good (h mi s : Nat) (hh : h ≤ 23) (hmi : mi ≤ 59) (hs : s ≤ 59)
    (tail : List Char) (tz : Option Int)
    (hfrac : parseFracPart tail = some (0, tail))
    (htz : parseTzPart tail = some tz) :
    parseTimePart (pad2 h ++ ':' :: (pad2 mi ++ ':' :: (pad2 s ++ tail)))
      = some (h, mi, s, 0, tz) := by
  have e1 := readND2_pad2 h (by omega) (':' :: (pad2 mi ++ ':' :: (pad2 s ++ tail)))
  have e2 := readND2_pad2 mi (by omega) (':' :: (pad2 s ++ tail))
  have e3 := readND2_pad2 s (by omega) tail
  simp only [parseTimePart, e1, e2, e3, hfrac, htz]
  simp [hh, hmi, hs]

theorem pyFromisoformat_dtChars (d : PyDateTime) (hv : validDT d) (hus : d.microsecond = 0) :
    pyFromisoformat (dtChars d) = some d := by
  rcases d with ⟨y, mo, dd, hr, mn, sc, us, tz⟩
  obtain ⟨hy1, hy2, hmo1, hmo2, hd1, hd2, hh, hmi, hs, htzb⟩ := hv
  simp only [] at hy1 hy2 hmo1 hmo2 hd1 hd2 hh hmi hs htzb hus
  subst hus
  have hdt : dtChars ⟨y, mo, dd, hr, mn, sc, 0, tz⟩
      = padTo 4 y ++ ('-' :: (pad2 mo ++ ('-' :: (pad2 dd ++ (' ' :: (pad2 hr ++ (':' ::
        (pad2 mn ++ (':' :: (pad2 sc ++ offsetChars tz)))))))))) := by
    simp [dtChars, List.append_assoc]
  rw [hdt]
  have hdm : daysInMonth y mo ≤ 31 := by
    unfold daysInMonth
    split_ifs <;> omega
  have hy4 : y < 10 ^ 4 := by
    norm_num
    omega
  have e4 := readND_padTo 4 y ('-' :: (pad2 mo ++ ('-' :: (pad2 dd ++ (' ' :: (pad2 hr ++
    (':' :: (pad2 mn ++ (':' :: (pad2 sc ++ offsetChars tz))))))))))
    (by omega) hy4
  have e5 := readND2_pad2 mo (by omega) ('-' :: (pad2 dd ++ (' ' :: (pad2 hr ++
    (':' :: (pad2 mn ++ (':' :: (pad2 sc ++ offsetChars tz))))))))
  have e6 := readND2_pad2 dd (by omega) (' ' :: (pad2 hr ++
    (':' :: (pad2 mn ++ (':' :: (pad2 sc ++ offsetChars tz))))))
  have htime : parseTimePart (pad2 hr ++ ':' :: (pad2 mn ++ ':' :: (pad2 sc ++ offsetChars tz)))
      = some (hr, mn, sc, 0, tz) := by
    rcases tz with _ | off
    · exact parseTimePart_good hr mn sc hh hmi hs [] none rfl rfl
    · have hoffb : off.natAbs ≤ 1439 := htzb
      by_cases hoff : off < 0
      · have hoc : offsetChars (some off)
            = '-' :: (pad2 (off.natAbs / 60) ++ ':' :: pad2 (off.natAbs % 60)) := by
          simp [offsetChars, hoff]
        refine parseTimePart_good hr mn sc hh hmi hs _ _ ?_ (parseTzPart_offset off hoffb)
        rw [hoc]
        rfl
      · have hoc : offsetChars (some off)
            = '+' :: (pad2 (off.natAbs / 60) ++ ':' :: pad2 (off.natAbs % 60)) := by
          simp [offsetChars, hoff]
        refine parseTimePart_good hr mn sc hh hmi hs _ _ ?_ (parseTzPart_offset off hoffb)
        rw [hoc]
        rfl
  simp only [pyFromisoformat, e4, e5, e6, htime]
  simp [hy1, hmo1, hmo2, hd1, hd2]

/-! ### The regex accepts a serialized query and recovers its tokens -/

theorem ct_truthy_of_valid {ct : CTField} (h : ct.isBadStr = false) : ct.truthy = true := by
  rcases ctField_good h with ⟨d, rfl⟩ | rfl | rfl | rfl <;> rfl

theorem mem_padTo_class {k n : Nat} {c : Char} (h : c ∈ padTo k n) : ctClassCh c = true :=
  ctClass_of_digit (padTo_all_digits k n c h)

theorem dtChars_norm (d : PyDateTime) (hus : d.microsecond = 0) :
    dtChars d = padTo 4 d.year ++ ('-' :: (pad2 d.month ++ ('-' :: (pad2 d.day ++ (' ' ::
      (pad2 d.hour ++ (':' :: (pad2 d.minute ++ (':' ::
        (pad2 d.second ++ offsetChars d.tz)))))))))) := by
  simp [dtChars, hus, List.append_assoc]

theorem offsetChars_class (tzv : Option Int) : ∀ c ∈ offsetChars tzv, ctClassCh c = true := by
  intro c hc
  rcases tzv with _ | off
  · simp [offsetChars] at hc
  · unfold offsetChars at hc
    simp only [List.mem_cons, List.mem_append] at hc
    rcases hc with hc | hc | hc | hc
    · subst hc
      split_ifs <;> decide
    · exact mem_padTo_class hc
    · subst hc; decide
    · exact mem_padTo_class hc

theorem dtChars_class (d : PyDateTime) (hus : d.microsecond = 0) :
    ∀ c ∈ dtChars d, ctClassCh c = true := by
  intro c hc
  rw [dtChars_norm d hus] at hc
  simp only [List.mem_append, List.mem_cons] at hc
  rcases hc with hc | hc | hc | hc | hc | hc | hc | hc | hc | hc | hc
  · exact mem_padTo_class hc
  · subst hc; decide
  · exact mem_padTo_class hc
  · subst hc; decide
  · exact mem_padTo_class hc
  · subst hc; decide
  · exact mem_padTo_class hc
  · subst hc; decide
  · exact mem_padTo_class hc
  · subst hc; decide
  · rcases hc with hc | hc
    · exact mem_padTo_class hc
    · exact offsetChars_class d.tz c hc

theorem dtChars_len2 (d : PyDateTime) (hus : d.microsecond = 0) : 2 ≤ (dtChars d).length := by
  rw [dtChars_norm d hus]
  simp [List.length_append]
  omega

theorem optMarked_optPart_branch (br : Option String) (hbr : goodBranchOpt br) (r : List Char)
    (hr : ∀ c, r.head? = some c → (c = '+' ∨ c = '@')) :
    optMarked '-' branchClassCh (optPart '-' br ++ r) = some (br.map String.data, r) := by
  rcases br with _ | s
  · simp only [optPart, List.nil_append, Option.map]
    apply optMarked_none
    intro c hc hmark
    rcases hr c hc with h | h <;> (subst hmark; revert h; decide)
  · obtain ⟨hs, hcl⟩ := hbr
    rw [show optPart '-' (some s) = '-' :: s.data from by simp [optPart, hs], List.cons_append]
    exact optMarked_some '-' _ s.data r (data_ne_nil hs) hcl
      (fun c hc => by rcases hr c hc with h | h <;> (subst h; decide))

theorem optMarked_optPart_hash (bh : Option String) (hbh : goodHashOpt bh) (r : List Char)
    (hr : ∀ c, r.head? = some c → c = '@') :
    optMarked '+' isWordCh (optPart '+' bh ++ r) = some (bh.map String.data, r) := by
  rcases bh with _ | t
  · simp only [optPart, List.nil_append, Option.map]
    apply optMarked_none
    intro c hc hmark
    have := hr c hc
    subst hmark
    revert this
    decide
  · obtain ⟨ht, hcl⟩ := hbh
    rw [show optPart '+' (some t) = '+' :: t.data from by simp [optPart, ht], List.cons_append]
    exact optMarked_some '+' _ t.data r (data_ne_nil ht) hcl
      (fun c hc => by rw [hr c hc]; decide)

theorem hashTail_head (bh : Option String) (hbh : goodHashOpt bh) (ct : List Char) :
    ∀ c, (optPart '+' bh ++ '@' :: ct).head? = some c → (c = '+' ∨ c = '@') := by
  rcases bh with _ | t
  · intro c hc
    simp only [optPart, List.nil_append] at hc
    exact Or.inr (head_cons_eq hc)
  · obtain ⟨ht, _⟩ := hbh
    intro c hc
    rw [show optPart '+' (some t) = '+' :: t.data from by simp [optPart, ht],
      List.cons_append] at hc
    exact Or.inl (head_cons_eq hc)

theorem branchTail_head (br bh : Option String) (hbr : goodBranchOpt br)
    (hbh : goodHashOpt bh) (ct : List Char) :
    ∀ c, (optPart '-' br ++ (optPart '+' bh ++ '@' :: ct)).head? = some c →
      isDigitCh c = false := by
  rcases br with _ | s
  · intro c hc
    simp only [optPart, List.nil_append] at hc
    rcases hashTail_head bh hbh ct c hc with h | h <;> (subst h; rfl)
  · obtain ⟨hs, _⟩ := hbr
    intro c hc
    rw [show optPart '-' (some s) = '-' :: s.data from by simp [optPart, hs],
      List.cons_append] at hc
    rw [head_cons_eq hc]
    rfl

theorem numField_chars_numTok (f : NumField) (hval : f.isBadStr = false)
    (hgood : goodNumLit f) (r : List Char)
    (hr : ∀ c, r.head? = some c → isDigitCh c = false) :
    numTok (f.chars ++ r) = some (f.chars, r) := by
  rcases numField_good hval with ⟨n, hn⟩ | hn | hn | hn
  · subst hn
    have hgn : ¬ n < 0 := by
      simp only [goodNumLit] at hgood
      omega
    have hchars : NumField.chars (.int n) = natToChars n.toNat := by
      simp [NumField.chars, intToChars, hgn]
    rw [hchars]
    exact numTok_digits _ (natToChars_ne_nil _) (natToChars_all_digits _) r hr
  · subst hn
    exact numTok_sym '^' (by decide) r
  · subst hn
    exact numTok_sym '*' (by decide) r
  · subst hn
    exact numTok_sym '-' (by decide) r

theorem regexMatch_vsqStr (q : VersionSearchQuery)
    (hq : VersionSearchQuery.make q.major q.minor q.patch q.branch q.build_hash q.commit_time
      = .ok q)
    (hbr : goodBranchOpt q.branch) (hbh : goodHashOpt q.build_hash)
    (hct : goodCT q.commit_time)
    (hma : goodNumLit q.major) (hmi : goodNumLit q.minor) (hpa : goodNumLit q.patch) :
    regexMatch (VersionSearchQuery.str q).data
      = some ⟨q.major.chars, q.minor.chars, q.patch.chars,
          q.branch.map String.data, q.build_hash.map String.data,
          some q.commit_time.chars⟩ := by
  obtain ⟨hv1, hv2, hv3, hv4, hv5, hv6, _⟩ := make_ok_elim hq
  have htr : q.commit_time.truthy = true := ct_truthy_of_valid hv4
  have hserial : (VersionSearchQuery.str q).data
      = q.major.chars ++ ('.' :: (q.minor.chars ++ ('.' :: (q.patch.chars
        ++ (optPart '-' q.branch ++ (optPart '+' q.build_hash
          ++ ('@' :: q.commit_time.chars))))))) := by
    have h0 : (VersionSearchQuery.str q).data
        = q.major.chars ++ '.' :: q.minor.chars ++ '.' :: q.patch.chars
          ++ optPart '-' q.branch ++ optPart '+' q.build_hash
          ++ (if q.commit_time.truthy = true then '@' :: q.commit_time.chars else []) := rfl
    rw [h0, if_pos htr]
    simp [List.append_assoc]
  have hCT : commitEnd ('@' :: q.commit_time.chars) = some (some q.commit_time.chars) := by
    rcases ctField_good hv4 with ⟨d, hd⟩ | hd | hd | hd
    · rw [hd] at hct ⊢
      obtain ⟨hvd, hus⟩ := hct
      exact commitEnd_long (dtChars d) (dtChars_len2 d hus) (dtChars_class d hus)
    · rw [hd]; decide
    · rw [hd]; decide
    · rw [hd]; decide
  have n1 := numField_chars_numTok q.major hv1 hma
    ('.' :: (q.minor.chars ++ ('.' :: (q.patch.chars ++ (optPart '-' q.branch
      ++ (optPart '+' q.build_hash ++ ('@' :: q.commit_time.chars)))))))
    (fun c hc => by rw [head_cons_eq hc]; rfl)
  have n2 := numField_chars_numTok q.minor hv2 hmi
    ('.' :: (q.patch.chars ++ (optPart '-' q.branch
      ++ (optPart '+' q.build_hash ++ ('@' :: q.commit_time.chars)))))
    (fun c hc => by rw [head_cons_eq hc]; rfl)
  have n3 := numField_chars_numTok q.patch hv3 hpa
    (optPart '-' q.branch ++ (optPart '+' q.build_hash ++ ('@' :: q.commit_time.chars)))
    (branchTail_head q.branch q.build_hash hbr hbh q.commit_time.chars)
  have b1 := optMarked_optPart_branch q.branch hbr
    (optPart '+' q.build_hash ++ ('@' :: q.commit_time.chars))
    (hashTail_head q.build_hash hbh q.commit_time.chars)
  have b2 := optMarked_optPart_hash q.build_hash hbh ('@' :: q.commit_time.chars)
    (fun c hc => head_cons_eq hc)
  rw [hserial]
  simp [regexMatch, n1, n2, n3, b1, b2, hCT, expectDot]

/-! ### Recovering the query fields from the captured groups -/

theorem tokToNumField_chars (f : NumField) (hval : f.isBadStr = false)
    (hgood : goodNumLit f) : tokToNumField f.chars = f := by
  rcases numField_good hval with ⟨n, hn⟩ | hn | hn | hn
  · subst hn
    have hgn : ¬ n < 0 := by
      simp only [goodNumLit] at hgood
      omega
    have hchars : NumField.chars (.int n) = natToChars n.toNat := by
      simp [NumField.chars, intToChars, hgn]
    rw [hchars]
    have hnum : tokIsNumeric (natToChars n.toNat) = true := by
      unfold tokIsNumeric
      simp [natToChars_ne_nil, List.all_eq_true]
      exact natToChars_all_digits n.toNat
    unfold tokToNumField
    rw [if_pos hnum, charsToNat_natToChars]
    exact congrArg NumField.int (Int.toNat_of_nonneg (by omega))
  · subst hn; decide
  · subst hn; decide
  · subst hn; decide

theorem opt_map_data_mk (o : Option String) : (o.map String.data).map String.mk = o := by
  rcases o with _ | s <;> rfl

theorem symStr_long_false (l : List Char) (h : 2 ≤ l.length) :
    symStr (String.mk l) = false := by
  have key : ∀ t : String, t.data.length = 1 → ¬(String.mk l = t) := by
    intro t ht he
    have : l = t.data := congrArg String.data he
    rw [this] at h
    omega
  unfold symStr
  simp [key ("^") (by decide), key ("*") (by decide), key ("-") (by decide)]

/-- Amended round-trip: `parse (str q) = q` for every validated query whose
branch/hash literals are drawn from the grammar's classes and whose commit time
is a mode symbol or a valid zero-microsecond timestamp. -/
theorem parse_str_roundtrip (q : VersionSearchQuery)
    (hq : VersionSearchQuery.make q.major q.minor q.patch q.branch q.build_hash q.commit_time
      = .ok q)
    (hbr : goodBranchOpt q.branch) (hbh : goodHashOpt q.build_hash)
    (hct : goodCT q.commit_time)
    (hma : goodNumLit q.major) (hmi : goodNumLit q.minor) (hpa : goodNumLit q.patch) :
    VersionSearchQuery.parse (VersionSearchQuery.str q) = .ok q := by
  obtain ⟨hv1, hv2, hv3, hv4, hv5, hv6, _⟩ := make_ok_elim hq
  have hre := regexMatch_vsqStr q hq hbr hbh hct hma hmi hpa
  have hctrec :
      (if symStr (String.mk q.commit_time.chars) then CTField.str (String.mk q.commit_time.chars)
       else
         match pyFromisoformat q.commit_time.chars with
         | some d => CTField.dt d
         | none => CTField.str (String.mk q.commit_time.chars)) = q.commit_time := by
    rcases ctField_good hv4 with ⟨d, hd⟩ | hd | hd | hd
    · rw [hd] at hct ⊢
      obtain ⟨hvd, hus⟩ := hct
      rw [if_neg (by rw [show CTField.chars (.dt d) = dtChars d from rfl,
        symStr_long_false (dtChars d) (dtChars_len2 d hus)]; exact Bool.noConfusion)]
      rw [show CTField.chars (.dt d) = dtChars d from rfl,
        pyFromisoformat_dtChars d hvd hus]
    · rw [hd]; decide
    · rw [hd]; decide
    · rw [hd]; decide
  unfold VersionSearchQuery.parse parseTuple
  rw [hre]
  show VersionSearchQuery.make (tokToNumField q.major.chars) (tokToNumField q.minor.chars)
      (tokToNumField q.patch.chars) ((q.branch.map String.data).map String.mk)
      ((q.build_hash.map String.data).map String.mk)
      (if symStr (String.mk q.commit_time.chars) then CTField.str (String.mk q.commit_time.chars)
       else
         match pyFromisoformat q.commit_time.chars with
         | some d => CTField.dt d
         | none => CTField.str (String.mk q.commit_time.chars)) = .ok q
  rw [tokToNumField_chars q.major hv1 hma, tokToNumField_chars q.minor hv2 hmi,
    tokToNumField_chars q.patch hv3 hpa, opt_map_data_mk, opt_map_data_mk, hctrec]
  exact hq

/-! ### Short-circuit and wildcard-absence helper lemmas -/

theorem matchGo_shortcircuit (q : VersionSearchQuery) (f : MField) (fs : List MField)
    (vs : List BasicBuildInfo)
    (hnw : ¬(pyEqB (queryVal q f) (.s ("*")) = true ∨ queryVal q f = FVal.nil))
    (hstep : matchStep vs (queryVal q f) (fieldGet f) = .ok []) :
    matchGo q (f :: fs) vs = .ok [] := by
  have ha : pyEqB (queryVal q f) (.s ("*")) = false := by
    cases h : pyEqB (queryVal q f) (.s ("*"))
    · rfl
    · exact absurd (Or.inl h) hnw
  have hb : (pyEqB (queryVal q f) (.s ("*")) || decide (queryVal q f = FVal.nil)) = false := by
    have hn : ¬(queryVal q f = FVal.nil) := fun h => hnw (Or.inr h)
    simp [ha, hn]
  simp only [matchGo, hb, Bool.false_eq_true, if_false, hstep]
  rfl

theorem matchGo_ext (q1 q2 : VersionSearchQuery) :
    ∀ (fs : List MField),
    (∀ f ∈ fs, queryVal q1 f = queryVal q2 f ∨
      ((pyEqB (queryVal q1 f) (.s ("*")) = true ∨ queryVal q1 f = FVal.nil) ∧
       (pyEqB (queryVal q2 f) (.s ("*")) = true ∨ queryVal q2 f = FVal.nil))) →
    ∀ vs, matchGo q1 fs vs = matchGo q2 fs vs := by
  intro fs
  induction fs with
  | nil => intro _ _; rfl
  | cons f fs ih =>
      intro hh vs
      have htail := fun g hg => hh g (List.mem_cons_of_mem _ hg)
      rcases hh f (by simp) with he | ⟨h1, h2⟩
      · simp only [matchGo, he]
        by_cases hw : (pyEqB (queryVal q2 f) (.s ("*"))
            || decide (queryVal q2 f = FVal.nil)) = true
        · rw [if_pos hw, if_pos hw]
          exact ih htail vs
        · rw [if_neg hw, if_neg hw]
          cases hms : matchStep vs (queryVal q2 f) (fieldGet f) with
          | error e => rfl
          | ok vs2 =>
              show (if vs2 = [] then Except.ok [] else matchGo q1 fs vs2)
                = (if vs2 = [] then Except.ok [] else matchGo q2 fs vs2)
              by_cases hnil : vs2 = []
              · rw [if_pos hnil, if_pos hnil]
              · rw [if_neg hnil, if_neg hnil]
                exact ih htail vs2
      · have hw1 : (pyEqB (queryVal q1 f) (.s ("*"))
            || decide (queryVal q1 f = FVal.nil)) = true := by
          rcases h1 with h | h <;> simp [h]
        have hw2 : (pyEqB (queryVal q2 f) (.s ("*"))
            || decide (queryVal q2 f = FVal.nil)) = true := by
          rcases h2 with h | h <;> simp [h]
        simp only [matchGo]
        rw [if_pos hw1, if_pos hw2]
        exact ih htail vs

theorem bmatch_branch_wild (c : List BasicBuildInfo) (q : VersionSearchQuery) :
    bmatch c {q with branch := none} = bmatch c {q with branch := some ("*")} := by
  unfold bmatch
  apply matchGo_ext
  intro f hf
  fin_cases hf
  · left; rfl
  · left; rfl
  · left; rfl
  · left; rfl
  · right
    exact ⟨Or.inr rfl, Or.inl (show pyEqB (FVal.s ("*")) (FVal.s ("*")) = true from by decide)⟩
  · left; rfl

theorem bmatch_hash_wild (c : List BasicBuildInfo) (q : VersionSearchQuery) :
    bmatch c {q with build_hash := none} = bmatch c {q with build_hash := some ("*")} := by
  unfold bmatch
  apply matchGo_ext
  intro f hf
  fin_cases hf
  · right
    exact ⟨Or.inr rfl, Or.inl (show pyEqB (FVal.s ("*")) (FVal.s ("*")) = true from by decide)⟩
  · left; rfl
  · left; rfl
  · left; rfl
  · left; rfl
  · left; rfl

/-! ### Validation characterizations -/

theorem numBad_iff (f : NumField) :
    f.isBadStr = true ↔ ∃ s, f = .str s ∧ ¬(s = "^" ∨ s = "*" ∨ s = "-") := by
  cases f with
  | int n => simp [NumField.isBadStr]
  | str s =>
      simp [NumField.isBadStr, symStr]
      try tauto

theorem ctBad_iff (f : CTField) :
    f.isBadStr = true ↔ ∃ s, f = .str s ∧ ¬(s = "^" ∨ s = "*" ∨ s = "-") := by
  cases f with
  | dt d => simp [CTField.isBadStr]
  | str s =>
      simp [CTField.isBadStr, symStr]
      try tauto

theorem optBad_iff (o : Option String) :
    optBad o = true ↔ ∃ s, o = some s ∧ s ≠ "" ∧ (s = "^" ∨ s = "-") := by
  cases o with
  | none => simp [optBad]
  | some s =>
      simp [optBad]
      try tauto

theorem make_error_iff (ma mi pa : NumField) (br bh : Option String) (ct : CTField) :
    (∃ e, VersionSearchQuery.make ma mi pa br bh ct = .error e) ↔
    (ma.isBadStr || mi.isBadStr || pa.isBadStr || ct.isBadStr
      || optBad bh || optBad br) = true := by
  constructor
  · rintro ⟨e, he⟩
    by_contra hb
    have hb2 : (ma.isBadStr || mi.isBadStr || pa.isBadStr || ct.isBadStr
        || optBad bh || optBad br) = false := by
      simpa using hb
    simp only [Bool.or_eq_false_iff] at hb2
    obtain ⟨⟨⟨⟨⟨b1, b2⟩, b3⟩, b4⟩, b5⟩, b6⟩ := hb2
    simp [VersionSearchQuery.make, b1, b2, b3, b4, b5, b6] at he
  · intro hb
    unfold VersionSearchQuery.make
    split_ifs with h1 h2 h3 h4 h5 h6
    · exact ⟨_, rfl⟩
    · exact ⟨_, rfl⟩
    · exact ⟨_, rfl⟩
    · exact ⟨_, rfl⟩
    · exact ⟨_, rfl⟩
    · exact ⟨_, rfl⟩
    · exfalso
      simp only [Bool.not_eq_true] at h1 h2 h3 h4 h5 h6
      simp [h1, h2, h3, h4, h5, h6] at hb

/-! ### The claims -/

/-- C1: on a non-empty catalog of records with timezone-aware commit times and for
every query that passes construction-time validation, `BInfoMatcher.match` returns
exactly the progressive narrowing of the spec: the fixed field priority order
`build_hash, major, minor, patch, branch, commit_time`, where `^` (resp. `-`) keeps
exactly the candidates whose field equals the maximum (resp. minimum) of that field
over the current, already-narrowed candidate set (`specMatch` is written from the
words of the spec). -/
theorem claim_C1 (c : List BasicBuildInfo) (q : VersionSearchQuery)
    (hne : c ≠ [])
    (hq : VersionSearchQuery.make q.major q.minor q.patch q.branch q.build_hash q.commit_time
      = .ok q)
    (hutc : ∀ v ∈ c, (v.commit_time.tz).isSome = true) :
    bmatch c q = .ok (specMatch c q) :=
  bmatch_eq_specMatch c q hne hq hutc

/-- Concrete instance for C1: a one-record catalog and the default query. -/
theorem claim_C1_witness :
    bmatch [⟨⟨4, 3, 0⟩, ("daily"), (""), ⟨2024, 7, 30, 0, 0, 0, 0, some 0⟩⟩]
        VersionSearchQuery.defaultQuery
      = .ok (specMatch [⟨⟨4, 3, 0⟩, ("daily"), (""), ⟨2024, 7, 30, 0, 0, 0, 0, some 0⟩⟩]
        VersionSearchQuery.defaultQuery) :=
  claim_C1 _ _ (by decide) (by decide) (by decide)

/-- C2 (amended): the round-trip `parse (str q) = q` holds for every validated query
whose optional fields are also grammar-representable: a present branch is non-empty
over the branch character class, a present build hash is non-empty alphanumeric,
integer components are non-negative, and the commit time is a mode symbol or a valid
microsecond-free timestamp.  (The unrestricted round-trip of the claim is refuted by
`claim_C2_counterexample`.) -/
theorem claim_C2 (q : VersionSearchQuery)
    (hq : VersionSearchQuery.make q.major q.minor q.patch q.branch q.build_hash q.commit_time
      = .ok q)
    (hbr : goodBranchOpt q.branch) (hbh : goodHashOpt q.build_hash)
    (hct : goodCT q.commit_time)
    (hma : goodNumLit q.major) (hmi : goodNumLit q.minor) (hpa : goodNumLit q.patch) :
    VersionSearchQuery.parse (VersionSearchQuery.str q) = .ok q :=
  parse_str_roundtrip q hq hbr hbh hct hma hmi hpa

/-- Concrete instance for C2: the query `1.2.3@^` round-trips. -/
theorem claim_C2_witness :
    VersionSearchQuery.parse (VersionSearchQuery.str
        ⟨NumField.int 1, NumField.int 2, NumField.int 3, none, none, CTField.str ("^")⟩)
      = .ok ⟨NumField.int 1, NumField.int 2, NumField.int 3, none, none, CTField.str ("^")⟩ :=
  claim_C2 _ (by decide) (by trivial) (by trivial) (by trivial)
    (show (0 : Int) ≤ 1 by decide) (show (0 : Int) ≤ 2 by decide)
    (show (0 : Int) ≤ 3 by decide)

/-- Counterexample for C2: `branch = some ""` passes construction-time validation
(the truthiness test skips the empty string), but it serializes by omission, so
parsing the serialization returns `branch = none`, a different query. -/
theorem claim_C2_counterexample :
    VersionSearchQuery.make (NumField.str ("*")) (NumField.str ("*")) (NumField.str ("*"))
        (some ("")) none (CTField.str ("^"))
      = .ok ⟨NumField.str ("*"), NumField.str ("*"), NumField.str ("*"), some (""), none,
          CTField.str ("^")⟩ ∧
    VersionSearchQuery.parse (VersionSearchQuery.str
        ⟨NumField.str ("*"), NumField.str ("*"), NumField.str ("*"), some (""), none,
          CTField.str ("^")⟩)
      = .ok ⟨NumField.str ("*"), NumField.str ("*"), NumField.str ("*"), none, none,
          CTField.str ("^")⟩ := by
  exact ⟨by decide, by decide⟩

/-- C3 (amended): on a NON-EMPTY catalog of records with timezone-aware commit
times, matching a validly constructed query never fails: it returns some (possibly
empty) list.  (On the empty catalog the claim is refuted by
`claim_C3_counterexample`: `^`/`-` run `max()`/`min()` on an empty sequence.) -/
theorem claim_C3 (c : List BasicBuildInfo) (q : VersionSearchQuery)
    (hne : c ≠ [])
    (hq : VersionSearchQuery.make q.major q.minor q.patch q.branch q.build_hash q.commit_time
      = .ok q)
    (hutc : ∀ v ∈ c, (v.commit_time.tz).isSome = true) :
    ∃ l, bmatch c q = .ok l :=
  ⟨specMatch c q, bmatch_eq_specMatch c q hne hq hutc⟩

/-- Concrete instance for C3: a two-record catalog and a validated query. -/
theorem claim_C3_witness :
    ∃ l, bmatch
        [⟨⟨1, 2, 3⟩, ("stable"), (""), ⟨2020, 5, 4, 0, 0, 0, 0, some 0⟩⟩,
         ⟨⟨4, 3, 0⟩, ("daily"), (""), ⟨2024, 7, 30, 0, 0, 0, 0, some 0⟩⟩]
        ⟨NumField.str ("^"), NumField.str ("*"), NumField.str ("*"), some ("daily"), none,
          CTField.str ("^")⟩ = .ok l :=
  claim_C3 _ _ (by decide) (by decide) (by decide)

/-- Counterexample for C3: the default query is validly constructed, yet matching it
against the EMPTY catalog raises (`max()` over an empty sequence is a `ValueError`):
there is an error path inside matching. -/
theorem claim_C3_counterexample :
    VersionSearchQuery.make (NumField.str ("^")) (NumField.str ("^")) (NumField.str ("^"))
        none none (CTField.str ("^")) = .ok VersionSearchQuery.defaultQuery ∧
    bmatch [] VersionSearchQuery.defaultQuery = .error () := by
  exact ⟨by decide, by decide⟩

/-- C4 (code bug): for `1.2.3@2024-99-99` the commit-time token matches the grammar
class and fails the ISO-8601 parse, and `_parse` indeed retains it verbatim; but
`VersionSearchQuery.parse` pipes the tuple through the constructor, whose
`__post_init__` raises on any commit-time string that is not a mode symbol, so
parsing raises a `ValueError` instead of succeeding with the verbatim token as the
spec demands. -/
theorem claim_C4 :
    parseTuple ("1.2.3@2024-99-99")
      = .ok ⟨NumField.int 1, NumField.int 2, NumField.int 3, none, none,
          CTField.str ("2024-99-99")⟩ ∧
    VersionSearchQuery.parse ("1.2.3@2024-99-99")
      = .error (("2024-99-99") ++ mustBeMsg) := by
  exact ⟨by decide, by decide⟩

/-- C5: if a (non-wildcard) filtering step empties the candidate set, the loop
returns the empty result immediately, without evaluating the remaining fields; in
particular a query carrying a build-hash literal present in no record of the
catalog matches nothing, regardless of all its other fields (build hash is the
first field filtered, and the literal empties the set there). -/
theorem claim_C5 (q1 q2 : VersionSearchQuery) (f : MField) (fs : List MField)
    (vs c : List BasicBuildInfo) (hsh : String)
    (hnw : ¬(pyEqB (queryVal q1 f) (.s ("*")) = true ∨ queryVal q1 f = FVal.nil))
    (hstep : matchStep vs (queryVal q1 f) (fieldGet f) = .ok [])
    (hq : q2.build_hash = some hsh) (hsym : symStr hsh = false)
    (habs : ∀ v ∈ c, v.build_hash ≠ hsh) :
    matchGo q1 (f :: fs) vs = .ok [] ∧ bmatch c q2 = .ok [] := by
  refine ⟨matchGo_shortcircuit q1 f fs vs hnw hstep, ?_⟩
  have h1 : hsh ≠ "^" := fun h => by subst h; exact absurd hsym (by decide)
  have h2 : hsh ≠ "*" := fun h => by subst h; exact absurd hsym (by decide)
  have h3 : hsh ≠ "-" := fun h => by subst h; exact absurd hsym (by decide)
  have hv : queryVal q2 MField.build_hash = FVal.s hsh := by
    simp [queryVal, hq]
  have hnw2 : ¬(pyEqB (queryVal q2 MField.build_hash) (.s ("*")) = true
      ∨ queryVal q2 MField.build_hash = FVal.nil) := by
    rw [hv]
    rintro (h | h)
    · exact h2 ((pyEqB_s_iff hsh ("*")).mp h)
    · exact FVal.noConfusion h
  have hfil : c.filter (fun v => pyEqB (fieldGet MField.build_hash v) (FVal.s hsh)) = [] := by
    rw [List.filter_eq_nil_iff]
    intro v hvmem
    simp [fieldGet, pyEqB_s_false (habs v hvmem)]
  have hstep2 : matchStep c (queryVal q2 MField.build_hash) (fieldGet MField.build_hash)
      = .ok [] := by
    rw [hv]
    rw [(matchStep_lit c (FVal.s hsh) (fieldGet MField.build_hash)
      (pyEqB_s_false h1) (by simp [pyEqB_s_false h2]) (pyEqB_s_false h3)).1, hfil]
  unfold bmatch fieldOrder
  exact matchGo_shortcircuit q2 MField.build_hash _ c hnw2 hstep2

/-- Concrete instance for C5: the literal hash `dead` matches no record. -/
theorem claim_C5_witness :
    matchGo ⟨NumField.str ("*"), NumField.str ("*"), NumField.str ("*"), none,
        some ("dead"), CTField.str ("*")⟩ [MField.build_hash]
        [⟨⟨1, 2, 3⟩, ("stable"), (""), ⟨2020, 5, 4, 0, 0, 0, 0, some 0⟩⟩] = .ok [] ∧
    bmatch [⟨⟨1, 2, 3⟩, ("stable"), (""), ⟨2020, 5, 4, 0, 0, 0, 0, some 0⟩⟩]
        ⟨NumField.str ("*"), NumField.str ("*"), NumField.str ("*"), none,
        some ("dead"), CTField.str ("*")⟩ = .ok [] :=
  claim_C5 _ _ MField.build_hash [] _ _ ("dead")
    (by decide) (by decide) rfl (by decide) (by decide)

/-- C6: construction fails with the `ValueError` of `__post_init__` exactly when a
field violates the invariants: `major`, `minor`, `patch` or `commit_time` is a
string other than a mode symbol, or a present non-empty `branch` or `build_hash`
equals `^` or `-`. -/
theorem claim_C6 (ma mi pa : NumField) (br bh : Option String) (ct : CTField) :
    (∃ e, VersionSearchQuery.make ma mi pa br bh ct = .error e) ↔
    ((∃ s, ma = NumField.str s ∧ ¬(s = "^" ∨ s = "*" ∨ s = "-")) ∨
     (∃ s, mi = NumField.str s ∧ ¬(s = "^" ∨ s = "*" ∨ s = "-")) ∨
     (∃ s, pa = NumField.str s ∧ ¬(s = "^" ∨ s = "*" ∨ s = "-")) ∨
     (∃ s, ct = CTField.str s ∧ ¬(s = "^" ∨ s = "*" ∨ s = "-")) ∨
     (∃ s, bh = some s ∧ s ≠ "" ∧ (s = "^" ∨ s = "-")) ∨
     (∃ s, br = some s ∧ s ≠ "" ∧ (s = "^" ∨ s = "-"))) := by
  rw [make_error_iff]
  simp only [Bool.or_eq_true, numBad_iff, ctBad_iff, optBad_iff, or_assoc]

/-- C7: a string the anchored grammar does not match makes parsing fail with the
`MalformedQuery` error, whose message names the original input; no query and no
empty result is returned for it. -/
theorem claim_C7 (s : String) (h : regexMatch s.data = none) :
    VersionSearchQuery.parse s = .error ("Invalid version search query: " ++ s) := by
  have h2 : parseTuple s = .error ("Invalid version search query: " ++ s) := by
    unfold parseTuple
    rw [h]
  unfold VersionSearchQuery.parse
  rw [h2]

/-- Concrete instance for C7: `abc` does not match the grammar. -/
theorem claim_C7_witness :
    VersionSearchQuery.parse ("abc") = .error ("Invalid version search query: " ++ ("abc")) :=
  claim_C7 ("abc") (by decide)

/-- C8: for every catalog and every query, matching with `branch` (respectively
`build_hash`) absent returns exactly the same result as matching with that field
set to the wildcard `*`: absence is semantically equivalent to `*` during
matching. -/
theorem claim_C8 (c : List BasicBuildInfo) (q : VersionSearchQuery) :
    bmatch c {q with branch := none} = bmatch c {q with branch := some ("*")} ∧
    bmatch c {q with build_hash := none} = bmatch c {q with build_hash := some ("*")} :=
  ⟨bmatch_branch_wild c q, bmatch_hash_wild c q⟩

/-- C9 (amended): only `from_buildinfo` normalizes: a record built through it always
carries an aware, UTC (offset zero) commit time, whatever timestamp (naive or
aware) the source `BuildInfo` held.  (The unrestricted claim — every record is
normalized at construction — is refuted by `claim_C9_counterexample`: the dataclass
constructor validates nothing.) -/
theorem claim_C9 (v : Version) (branch : String) (build_hash : Option String)
    (ct : PyDateTime) (off : Int) :
    ((BasicBuildInfo.from_buildinfo v branch build_hash ct off).commit_time).tz
      = some 0 := by
  unfold BasicBuildInfo.from_buildinfo PyDateTime.astimezoneUtc
  cases htz : ct.tz <;> simp [pyDatetimeFromEpochMicro]

/-- Counterexample for C9: the plain dataclass constructor stores a naive
commit time verbatim — nothing rejects or normalizes it — and comparing that naive
timestamp with an aware one is the mixed comparison the invariant forbids
(a `TypeError`, modelled by `pyCmpDt` returning `none`). -/
theorem claim_C9_counterexample :
    (BasicBuildInfo.mk ⟨1, 2, 3⟩ ("stable") ("") ⟨2020, 5, 4, 0, 0, 0, 0, none⟩).commit_time
      = ⟨2020, 5, 4, 0, 0, 0, 0, none⟩ ∧
    (BasicBuildInfo.mk ⟨1, 2, 3⟩ ("stable") ("") ⟨2020, 5, 4, 0, 0, 0, 0, none⟩).commit_time.tz
      = none ∧
    pyCmpDt ⟨2020, 5, 4, 0, 0, 0, 0, none⟩ ⟨2020, 5, 4, 0, 0, 0, 0, some 0⟩ = none := by
  exact ⟨rfl, rfl, by decide⟩

/-- C10: constructing a query with `branch = "*"` or `build_hash = "*"` succeeds
(only `^` and `-` are rejected on those fields), and matching with the explicit
`*` filters nothing on them: it returns exactly what the query with those fields
absent returns, on every catalog. -/
theorem claim_C10 (c : List BasicBuildInfo) (ma mi pa : NumField) (ct : CTField)
    (hma : ma.isBadStr = false) (hmi : mi.isBadStr = false)
    (hpa : pa.isBadStr = false) (hct : ct.isBadStr = false) :
    VersionSearchQuery.make ma mi pa (some ("*")) (some ("*")) ct
      = .ok ⟨ma, mi, pa, some ("*"), some ("*"), ct⟩ ∧
    bmatch c ⟨ma, mi, pa, some ("*"), some ("*"), ct⟩
      = bmatch c ⟨ma, mi, pa, none, none, ct⟩ := by
  constructor
  · have hbh : optBad (some ("*")) = false := by decide
    simp [VersionSearchQuery.make, hma, hmi, hpa, hct, hbh]
  · calc bmatch c ⟨ma, mi, pa, some ("*"), some ("*"), ct⟩
        = bmatch c ⟨ma, mi, pa, some ("*"), none, ct⟩ :=
          (bmatch_hash_wild c ⟨ma, mi, pa, some ("*"), none, ct⟩).symm
      _ = bmatch c ⟨ma, mi, pa, none, none, ct⟩ :=
          (bmatch_branch_wild c ⟨ma, mi, pa, none, none, ct⟩).symm

/-- Concrete instance for C10: `4.2.0` with wildcard branch and hash. -/
theorem claim_C10_witness :
    VersionSearchQuery.make (NumField.int 4) (NumField.int 2) (NumField.int 0)
        (some ("*")) (some ("*")) (CTField.str ("^"))
      = .ok ⟨NumField.int 4, NumField.int 2, NumField.int 0, some ("*"), some ("*"),
          CTField.str ("^")⟩ ∧
    bmatch [] ⟨NumField.int 4, NumField.int 2, NumField.int 0, some ("*"), some ("*"),
          CTField.str ("^")⟩
      = bmatch [] ⟨NumField.int 4, NumField.int 2, NumField.int 0, none, none,
          CTField.str ("^")⟩ :=
  claim_C10 [] _ _ _ _ (by decide) (by decide) (by decide) (by decide)
